import Mathlib

/-!
Verification of the leveldbplus secondary-index subsystem against its
specification.  The development shallowly embeds, in Lean 4:

* the 2-D interval tree with top-K (`util/interval_tree.h/.cc`): the interval
  type, the augmented red-black tree with its cached `max_high` /
  `max_timestamp` fields, insertion and deletion (including the rotation and
  transplant surgery and the cached-field fix-ups), and the lazy top-K
  iterator;
* the JSON attribute extractor (`util/json_utils`);
* the secondary-memtable lookup loops (`db/memtable.cc`);
* the table-builder bookkeeping for per-block secondary ranges
  (`table/table_builder.cc`).

Machine integers (`uint64_t` sequence numbers, timestamps) are modeled as
`Nat`: the code only compares them, never wraps them.  C++ `std::string`
byte-wise lexicographic comparison is modeled by Lean's lexicographic `String`
order (UTF-8 is order-preserving).  Pointer-based state is modeled
functionally: the tree's parent pointers become zipper contexts, and `while`
loops whose termination depends on run-time invariants take explicit fuel.
-/

set_option maxHeartbeats 1000000

/-- Model of class `Interval2DTree` (util/interval_tree.h): a 1-D string
interval carrying an id and a timestamp (the `uint64_t` timestamp is a `Nat`). -/
structure Interval2DTree where
  id : String
  low : String
  high : String
  timestamp : Nat
deriving DecidableEq, Repr

/-- Decidability of the string order through the character lists.  The
iterator-based decision procedure the library installs is compiled by
well-founded recursion and does not reduce inside the kernel; the list-based
one below does, keeping every definition in this file kernel-evaluable on
concrete inputs.  The ordering itself is unchanged (byte-wise lexicographic,
as for C++ std::string). -/
instance (priority := 10000) decidableStrLt (a b : String) : Decidable (a < b) :=
  decidable_of_iff (a.toList < b.toList) String.lt_iff_toList_lt.symm

instance (priority := 10000) decidableStrLe (a b : String) : Decidable (a ≤ b) :=
  decidable_of_iff (a.toList ≤ b.toList) String.le_iff_toList_le.symm

/-- Model of `Interval2DTree::operator*` (interval_tree.h, lines 36-40), the
overlap test; point intersections are considered intersections. -/
def overlapsB (a b : Interval2DTree) : Bool :=
  if a.low < b.low then decide (a.high ≥ b.low) else decide (b.high ≥ a.low)

/-- Model of the file-static `max2` in interval_tree.cc.  The decidability
binder lets the string instantiation use the kernel-reducible order decision. -/
def max2 {T : Type} [LinearOrder T] [DecidableRel (· < · : T → T → Prop)]
    (a b : T) : T :=
  if a > b then a else b

/-- Model of the file-static `max3` in interval_tree.cc. -/
def max3 {T : Type} [LinearOrder T] [DecidableRel (· < · : T → T → Prop)]
    (a b c : T) : T :=
  if a > b then (if a > c then a else c) else (if b > c then b else c)

theorem max2_eq {T : Type} [LinearOrder T] [DecidableRel (· < · : T → T → Prop)]
    (a b : T) : max2 a b = max a b := by
  unfold max2
  split
  · exact (max_eq_left (le_of_lt (by assumption))).symm
  · exact (max_eq_right (le_of_not_lt (by assumption))).symm

theorem max3_eq {T : Type} [LinearOrder T] [DecidableRel (· < · : T → T → Prop)]
    (a b c : T) : max3 a b c = max a (max b c) := by
  unfold max3
  rcases lt_or_le b a with h | h
  · rcases lt_or_le c a with h' | h'
    · rw [if_pos h, if_pos h', max_eq_left (max_le h.le h'.le)]
    · rw [if_pos h, if_neg (not_lt_of_le h'), max_eq_right (h.le.trans h'),
        max_eq_right h']
  · rcases lt_or_le c b with h' | h'
    · rw [if_neg (not_lt_of_le h), if_pos h', max_eq_left h'.le, max_eq_right h]
    · rw [if_neg (not_lt_of_le h), if_neg (not_lt_of_le h'), max_eq_right h',
        max_eq_right (h.trans h')]

/-- Model of one attribute value inside a parsed JSON document.  Parsing is
done by the external rapidjson library; the embedding takes the parsed
document as input.  Nested arrays/objects are opaque (the extractor rejects
them without looking inside), and double-typed values are outside the model
(their rendering is floating point); every claim settled against the extractor
concerns the other branches. -/
inductive JSONAtom where
  | jnull : JSONAtom
  | jbool (b : Bool) : JSONAtom
  | jint (n : Int) : JSONAtom
  | juint (n : Nat) : JSONAtom
  | jstring (s : String) : JSONAtom
  | jarray : JSONAtom
  | jobj : JSONAtom
deriving DecidableEq, Repr

/-- Model of a parsed JSON payload: either a top-level object with its member
list, or any non-object parse result (including unparseable payloads), which
the extractor rejects uniformly via `!doc.IsObject()`. -/
inductive JSONValue where
  | jobject (members : List (String × JSONAtom)) : JSONValue
  | jnonobject : JSONValue
deriving DecidableEq, Repr

deriving instance DecidableEq for Except

/-- Lookup of a member in a JSON object (rapidjson `HasMember` / `operator[]`:
first member with the given name). -/
def jsonFind : List (String × JSONAtom) → String → Option JSONAtom
  | [], _ => none
  | (k, v) :: rest, key => if k = key then some v else jsonFind rest key

/-- Model of `ExtractKeyFromJSON` (util/json_utils): fails when the attribute
name is empty, the document is not an object, the member is absent or null, or
the value is an array/object; renders unsigned and signed integers in base 10;
returns strings verbatim; renders booleans through `operator<<` on `bool`,
which prints `1` or `0` (no `boolalpha` is set on the stream). -/
def ExtractKeyFromJSON (doc : JSONValue) (key : String) : Except String String :=
  if key = "" then .error "primary key not set"
  else
    match doc with
    | .jobject members =>
      match jsonFind members key with
      | none => .error "key attribute not found in the document"
      | some .jnull => .error "key attribute not found in the document"
      | some (.juint n) => .ok (toString n)
      | some (.jint n) => .ok (toString n)
      | some (.jstring s) => .ok s
      | some (.jbool b) => .ok (if b then "1" else "0")
      | some _ => .error "Unsupported key type"
    | .jnonobject => .error "key attribute not found in the document"

/-- C8 counterexample: on the document `{"age": true}` the extractor yields
`"1"`, not `"true"` as the claim states (`ostringstream << bool` without
`boolalpha` prints `1`/`0`). -/
theorem c8_bool_counterexample :
    ExtractKeyFromJSON (.jobject [("age", .jbool true)]) "age" = .ok "1" ∧
      ExtractKeyFromJSON (.jobject [("age", .jbool true)]) "age" ≠ .ok "true" := by
  constructor <;> decide

/-- C8 (amended): for every JSON object whose configured attribute holds a
boolean, the extractor succeeds and yields the string `"1"` for `true` and
`"0"` for `false`. -/
theorem c8_extract_bool (members : List (String × JSONAtom)) (key : String)
    (b : Bool) (hk : key ≠ "") (hfind : jsonFind members key = some (.jbool b)) :
    ExtractKeyFromJSON (.jobject members) key = .ok (if b then "1" else "0") := by
  simp [ExtractKeyFromJSON, hk, hfind]

/-- C8 witness: the amended theorem applied at `{"age": false}`. -/
theorem c8_extract_bool_witness :
    ("age" : String) ≠ "" ∧
      ExtractKeyFromJSON (.jobject [("age", .jbool false)]) "age" = .ok "0" := by
  refine ⟨by decide, ?_⟩
  have h := c8_extract_bool [("age", .jbool false)] "age" false (by decide) (by decide)
  simpa using h

/-- Model of struct `SecondaryKeyReturnVal` (declared in db/dbformat.h, used by
db/memtable.cc): primary key, payload (as a parsed JSON document) and the full
8-byte tag `(sequence << 8) | type`, which `MemTable::Get` assigns to
`sequence_number`. -/
structure SecondaryKeyReturnVal where
  key : String
  value : JSONValue
  sequence_number : Nat
deriving DecidableEq, Repr

instance : Inhabited SecondaryKeyReturnVal :=
  ⟨⟨"", .jnonobject, 0⟩⟩

/-- Modelled from the spec: `SecondaryKeyReturnVal::Push`/`Pop` and the heap
discipline of the `acc` accumulator are implemented in db/dbformat.h, which is
not under src/.  Per spec §4.6 the accumulator is a min-heap keyed by sequence
number with ties broken by primary key, whose front is the heap minimum.  The
model keeps `acc` sorted ascending by (sequence_number, key). -/
def skrvBefore (a b : SecondaryKeyReturnVal) : Bool :=
  decide (a.sequence_number < b.sequence_number) ||
    (decide (a.sequence_number = b.sequence_number) && decide (a.key ≤ b.key))

/-- Modelled from the spec: `SecondaryKeyReturnVal::Push` inserts into the
min-heap; on the sorted-list model this is ordered insertion. -/
def skrvPush : List SecondaryKeyReturnVal → SecondaryKeyReturnVal →
    List SecondaryKeyReturnVal
  | [], v => [v]
  | w :: rest, v => if skrvBefore v w then v :: w :: rest else w :: skrvPush rest v

/-- Modelled from the spec: `SecondaryKeyReturnVal::Pop` removes the heap
minimum, i.e. the front of the sorted list. -/
def skrvPop (acc : List SecondaryKeyReturnVal) : List SecondaryKeyReturnVal :=
  acc.tail

/-- Modelled from the spec: `acc->front()`, the heap minimum. -/
def skrvFront (acc : List SecondaryKeyReturnVal) : SecondaryKeyReturnVal :=
  acc.headD default

/-- Outcome of the primary-key `MemTable::Get` overload (memtable.cc lines
187-222) at a given snapshot: a live value with its tag, a deletion marker
(`Status::NotFound`), or no entry for that user key.  The skiplist it seeks
(db/skiplist.h) is not under src/, so the model abstracts the seek as an
oracle from primary key and snapshot to this outcome. -/
inductive PrimaryGetResult where
  | found (value : JSONValue) (tag : Nat) : PrimaryGetResult
  | deleted : PrimaryGetResult
  | absent : PrimaryGetResult
deriving DecidableEq, Repr

/-- Model of the MemTable state used by the secondary lookups: the inverted
list `secondary_table_` (secondary value → primary keys, appended in write
order so the newest entry is last), the primary-lookup oracle, and the
configured secondary attribute name. -/
structure MemTableModel where
  secondary_table : List (String × List String)
  primary : String → Nat → PrimaryGetResult
  secondary_attribute : String

/-- Lookup of a bucket in the inverted list (SecMemTable::find). -/
def secTableFind : List (String × List String) → String → Option (List String)
  | [], _ => none
  | (k, v) :: rest, key => if k = key then some v else secTableFind rest key

/-- Outcome of one candidate body of the secondary lookup loops: `ret` aborts
the whole call (the C++ `return` statements), `cont` proceeds to the next
candidate. -/
inductive SecLoopStep where
  | ret (acc : List SecondaryKeyReturnVal) (seen : Finset String) : SecLoopStep
  | cont (acc : List SecondaryKeyReturnVal) (seen : Finset String) : SecLoopStep
deriving DecidableEq

/-- Model of the per-candidate body shared by `MemTable::Get` (memtable.cc
lines 236-268) and `MemTable::RangeGet` (lines 286-318), from the primary-key
re-read to the admission logic; `bucketKey` is the string the re-extracted
secondary value is compared against (the query key in `Get`, the bucket key in
`RangeGet`).  Note the order of operations in the eviction branch: the new
entry is pushed first, and the key erased from the seen set afterwards is the
front of the heap after that push. -/
def secLookupBody (mt : MemTableModel) (bucketKey : String) (snapshot : Nat)
    (topK : Nat) (pkey : String) (acc : List SecondaryKeyReturnVal)
    (seen : Finset String) : SecLoopStep :=
  match mt.primary pkey snapshot with
  | .absent => .ret acc seen
  | .deleted => .ret acc seen
  | .found svalue tag =>
    match ExtractKeyFromJSON svalue mt.secondary_attribute with
    | .error _ => .ret acc seen
    | .ok secKeyVal =>
      if secKeyVal = bucketKey then
        let newVal : SecondaryKeyReturnVal := ⟨pkey, svalue, tag⟩
        if pkey ∈ seen then .cont acc seen
        else if acc.length < topK then
          .cont (skrvPush acc newVal) (insert pkey seen)
        else if newVal.sequence_number > (skrvFront acc).sequence_number then
          let acc1 := skrvPush (skrvPop acc) newVal
          .cont acc1 ((insert pkey seen).erase (skrvFront acc1).key)
        else .cont acc seen
      else .cont acc seen

/-- Model of the candidate loop of `MemTable::Get` (memtable.cc lines
233-269): candidates are the inverted list in reverse (newest first); once the
accumulator holds `topK` entries the call returns, and the `return`s inside
the body abort the remaining candidates. -/
def secGetLoop (mt : MemTableModel) (skey : String) (snapshot : Nat)
    (topK : Nat) : List String → List SecondaryKeyReturnVal → Finset String →
    List SecondaryKeyReturnVal × Finset String
  | [], acc, seen => (acc, seen)
  | pkey :: rest, acc, seen =>
    if acc.length ≥ topK then (acc, seen)
    else
      match secLookupBody mt skey snapshot topK pkey acc seen with
      | .ret acc1 seen1 => (acc1, seen1)
      | .cont acc1 seen1 => secGetLoop mt skey snapshot topK rest acc1 seen1

/-- Model of the secondary point lookup `MemTable::Get(skey, snapshot, acc, s,
result_set, top_k_output)` (memtable.cc lines 224-270). -/
def MemTableGet (mt : MemTableModel) (skey : String) (snapshot : Nat)
    (topK : Nat) (acc : List SecondaryKeyReturnVal) (seen : Finset String) :
    List SecondaryKeyReturnVal × Finset String :=
  match secTableFind mt.secondary_table skey with
  | none => (acc, seen)
  | some lst => secGetLoop mt skey snapshot topK lst.reverse acc seen

/-- Model of the inner (per-bucket) candidate loop of `MemTable::RangeGet`
(memtable.cc lines 282-319): candidates are the bucket's inverted list in
reverse (newest first); unlike the point lookup, a full accumulator skips the
candidate (`continue`) and the loop keeps scanning, while the `return`s inside
the body abort the whole `RangeGet` call — the Boolean result records that
abort for the outer loop. -/
def secRangeBucketLoop (mt : MemTableModel) (bucketKey : String)
    (snapshot : Nat) (topK : Nat) : List String →
    List SecondaryKeyReturnVal → Finset String →
    List SecondaryKeyReturnVal × Finset String × Bool
  | [], acc, seen => (acc, seen, false)
  | pkey :: rest, acc, seen =>
    if acc.length ≥ topK then
      secRangeBucketLoop mt bucketKey snapshot topK rest acc seen
    else
      match secLookupBody mt bucketKey snapshot topK pkey acc seen with
      | .ret acc1 seen1 => (acc1, seen1, true)
      | .cont acc1 seen1 =>
        secRangeBucketLoop mt bucketKey snapshot topK rest acc1 seen1

/-- Model of the outer (bucket) loop of `MemTable::RangeGet` (memtable.cc
lines 281-320): buckets are visited in map iteration order; a body `return`
inside a bucket aborts the remaining buckets as well. -/
def secRangeGetLoop (mt : MemTableModel) (snapshot topK : Nat) :
    List (String × List String) → List SecondaryKeyReturnVal →
    Finset String → List SecondaryKeyReturnVal × Finset String
  | [], acc, seen => (acc, seen)
  | (bkey, plist) :: rest, acc, seen =>
    match secRangeBucketLoop mt bkey snapshot topK plist.reverse acc seen with
    | (acc1, seen1, true) => (acc1, seen1)
    | (acc1, seen1, false) => secRangeGetLoop mt snapshot topK rest acc1 seen1

/-- Model of the secondary range lookup `MemTable::RangeGet(start_skey,
end_skey, snapshot, acc, s, result_set, top_k_output)` (memtable.cc lines
272-321).  `secondary_table_` is a `std::map` iterated in key order, so the
`lower_bound(start)`/`upper_bound(end)` iterator range is exactly the buckets
with `start ≤ key ≤ end`; on the association-list model (kept in that
iteration order) this is the order-preserving filter. -/
def MemTableRangeGet (mt : MemTableModel) (startKey endKey : String)
    (snapshot topK : Nat) (acc : List SecondaryKeyReturnVal)
    (seen : Finset String) : List SecondaryKeyReturnVal × Finset String :=
  secRangeGetLoop mt snapshot topK
    (mt.secondary_table.filter fun kv =>
      decide (startKey ≤ kv.1) && decide (kv.1 ≤ endKey)) acc seen

/-- Pushing into the accumulator only adds the pushed entry. -/
theorem mem_skrvPush (acc : List SecondaryKeyReturnVal)
    (v e : SecondaryKeyReturnVal) :
    e ∈ skrvPush acc v ↔ e ∈ acc ∨ e = v := by
  induction acc with
  | nil => simp [skrvPush]
  | cons w rest ih =>
    unfold skrvPush
    split
    · simp only [List.mem_cons]
      tauto
    · simp only [List.mem_cons, ih]
      tauto

/-- No call of the point-lookup loop ever removes an entry from the
accumulator: the eviction branch of the admission logic is unreachable in
`MemTable::Get`, because the loop returns before examining a candidate once
the accumulator is full. -/
theorem secGetLoop_mono (mt : MemTableModel) (skey : String)
    (snapshot topK : Nat) (l : List String) (acc : List SecondaryKeyReturnVal)
    (seen : Finset String) (e : SecondaryKeyReturnVal) (he : e ∈ acc) :
    e ∈ (secGetLoop mt skey snapshot topK l acc seen).1 := by
  induction l generalizing acc seen with
  | nil => simpa [secGetLoop] using he
  | cons pkey rest ih =>
    unfold secGetLoop
    by_cases hfull : acc.length ≥ topK
    · simpa [if_pos hfull] using he
    · have hlt : acc.length < topK := lt_of_not_le hfull
      rw [if_neg hfull]
      cases hp : mt.primary pkey snapshot with
      | absent => simpa [secLookupBody, hp] using he
      | deleted => simpa [secLookupBody, hp] using he
      | found sv tag =>
        cases hx : ExtractKeyFromJSON sv mt.secondary_attribute with
        | error msg => simpa [secLookupBody, hp, hx] using he
        | ok secKeyVal =>
          by_cases hk : secKeyVal = skey
          · by_cases hseen : pkey ∈ seen
            · simpa [secLookupBody, hp, hx, hk, hseen] using ih _ _ he
            · simpa [secLookupBody, hp, hx, hk, hseen, hlt] using
                ih _ _ ((mem_skrvPush _ _ _).mpr (Or.inl he))
          · simpa [secLookupBody, hp, hx, hk] using ih _ _ he

/-- No call of the range-lookup bucket loop ever removes an entry from the
accumulator: the body is only entered while the accumulator is below `topK`
(the full-accumulator guard `continue`s), so the eviction branch is
unreachable in `MemTable::RangeGet` as well. -/
theorem secRangeBucketLoop_mono (mt : MemTableModel) (bucketKey : String)
    (snapshot topK : Nat) (l : List String) (acc : List SecondaryKeyReturnVal)
    (seen : Finset String) (e : SecondaryKeyReturnVal) (he : e ∈ acc) :
    e ∈ (secRangeBucketLoop mt bucketKey snapshot topK l acc seen).1 := by
  induction l generalizing acc seen with
  | nil => simpa [secRangeBucketLoop] using he
  | cons pkey rest ih =>
    unfold secRangeBucketLoop
    by_cases hfull : acc.length ≥ topK
    · simpa [if_pos hfull] using ih _ _ he
    · have hlt : acc.length < topK := lt_of_not_le hfull
      rw [if_neg hfull]
      cases hp : mt.primary pkey snapshot with
      | absent => simpa [secLookupBody, hp] using he
      | deleted => simpa [secLookupBody, hp] using he
      | found sv tag =>
        cases hx : ExtractKeyFromJSON sv mt.secondary_attribute with
        | error msg => simpa [secLookupBody, hp, hx] using he
        | ok secKeyVal =>
          by_cases hk : secKeyVal = bucketKey
          · by_cases hseen : pkey ∈ seen
            · simpa [secLookupBody, hp, hx, hk, hseen] using ih _ _ he
            · simpa [secLookupBody, hp, hx, hk, hseen, hlt] using
                ih _ _ ((mem_skrvPush _ _ _).mpr (Or.inl he))
          · simpa [secLookupBody, hp, hx, hk] using ih _ _ he

/-- No call of the range-lookup outer loop ever removes an entry from the
accumulator. -/
theorem secRangeGetLoop_mono (mt : MemTableModel) (snapshot topK : Nat)
    (buckets : List (String × List String))
    (acc : List SecondaryKeyReturnVal) (seen : Finset String)
    (e : SecondaryKeyReturnVal) (he : e ∈ acc) :
    e ∈ (secRangeGetLoop mt snapshot topK buckets acc seen).1 := by
  induction buckets generalizing acc seen with
  | nil => simpa [secRangeGetLoop] using he
  | cons b rest ih =>
    obtain ⟨bkey, plist⟩ := b
    unfold secRangeGetLoop
    have hin := secRangeBucketLoop_mono mt bkey snapshot topK plist.reverse
      acc seen e he
    rcases hres : secRangeBucketLoop mt bkey snapshot topK plist.reverse
      acc seen with ⟨acc1, seen1, ab⟩
    rw [hres] at hin
    cases ab
    · simpa using ih _ _ hin
    · simpa using hin

/-- Concrete memtable for the C4 counterexample.  The inverted list at "5"
holds the primary keys "b" (older list position) and "a" (newest, examined
first).  At the snapshot, "a" re-reads as a live matching record with tag 256
(sequence 1) and "b" as a live matching record with tag 2560 (sequence 10). -/
def mtC4 : MemTableModel where
  secondary_table := [("5", ["b", "a"])]
  primary := fun pkey _ =>
    if pkey = "a" then .found (.jobject [("age", .jstring "5")]) 256
    else .found (.jobject [("age", .jstring "5")]) 2560
  secondary_attribute := "age"

/-- C4 counterexample: with `topK = 1`, after "a" (sequence 256) fills the
heap, the candidate "b" has a primary key not in the seen set and sequence
2560 greater than the heap minimum 256, so the claimed admission rule admits
it; the code instead returns as soon as the heap is full, so "b" is never
admitted and the result holds only "a". -/
theorem c4_admission_counterexample :
    ((MemTableGet mtC4 "5" 10 1 [] ∅).1.map fun v => v.key) = ["a"] ∧
      (2560 : Nat) > 256 := by
  constructor
  · rfl
  · decide

/-- C4 (amended): in both `MemTable::Get` and `MemTable::RangeGet`, an
incoming live matching candidate is admitted iff the heap holds fewer than
`topK` entries AND its primary key is not in the seen set; once the heap
holds `topK` entries the loops stop examining candidates — the point lookup
returns (conjunct 1), the range lookup's bucket loop skips the candidate and
keeps scanning (conjunct 5) — so the eviction branch never runs and no
admission ever evicts the heap minimum (conjuncts 4 and 8: entries already
in the accumulator are never removed, in `Get` and in the whole `RangeGet`).
`skey` is the string the re-extracted secondary value is compared against:
the query key in `Get`, the bucket key in `RangeGet`. -/
theorem c4_admission (mt : MemTableModel) (skey : String) (snapshot topK : Nat)
    (pkey : String) (rest : List String) (acc : List SecondaryKeyReturnVal)
    (seen : Finset String) (svalue : JSONValue) (tag : Nat)
    (hp : mt.primary pkey snapshot = .found svalue tag)
    (hx : ExtractKeyFromJSON svalue mt.secondary_attribute = .ok skey) :
    (topK ≤ acc.length →
      secGetLoop mt skey snapshot topK (pkey :: rest) acc seen = (acc, seen)) ∧
    (acc.length < topK → pkey ∉ seen →
      secGetLoop mt skey snapshot topK (pkey :: rest) acc seen =
        secGetLoop mt skey snapshot topK rest
          (skrvPush acc ⟨pkey, svalue, tag⟩) (insert pkey seen)) ∧
    (acc.length < topK → pkey ∈ seen →
      secGetLoop mt skey snapshot topK (pkey :: rest) acc seen =
        secGetLoop mt skey snapshot topK rest acc seen) ∧
    (∀ e ∈ acc, e ∈ (secGetLoop mt skey snapshot topK (pkey :: rest) acc seen).1) ∧
    (topK ≤ acc.length →
      secRangeBucketLoop mt skey snapshot topK (pkey :: rest) acc seen =
        secRangeBucketLoop mt skey snapshot topK rest acc seen) ∧
    (acc.length < topK → pkey ∉ seen →
      secRangeBucketLoop mt skey snapshot topK (pkey :: rest) acc seen =
        secRangeBucketLoop mt skey snapshot topK rest
          (skrvPush acc ⟨pkey, svalue, tag⟩) (insert pkey seen)) ∧
    (acc.length < topK → pkey ∈ seen →
      secRangeBucketLoop mt skey snapshot topK (pkey :: rest) acc seen =
        secRangeBucketLoop mt skey snapshot topK rest acc seen) ∧
    (∀ startKey endKey, ∀ e ∈ acc,
      e ∈ (MemTableRangeGet mt startKey endKey snapshot topK acc seen).1) := by
  refine ⟨?_, ?_, ?_, ?_, ?_, ?_, ?_, ?_⟩
  · intro hfull
    unfold secGetLoop
    rw [if_pos hfull]
  · intro hlt hseen
    conv_lhs => rw [secGetLoop]
    rw [if_neg (not_le_of_lt hlt)]
    simp [secLookupBody, hp, hx, hseen, hlt]
  · intro hlt hseen
    conv_lhs => rw [secGetLoop]
    rw [if_neg (not_le_of_lt hlt)]
    simp [secLookupBody, hp, hx, hseen, hlt]
  · intro e he
    exact secGetLoop_mono mt skey snapshot topK _ acc seen e he
  · intro hfull
    conv_lhs => rw [secRangeBucketLoop]
    rw [if_pos hfull]
  · intro hlt hseen
    conv_lhs => rw [secRangeBucketLoop]
    rw [if_neg (not_le_of_lt hlt)]
    simp [secLookupBody, hp, hx, hseen, hlt]
  · intro hlt hseen
    conv_lhs => rw [secRangeBucketLoop]
    rw [if_neg (not_le_of_lt hlt)]
    simp [secLookupBody, hp, hx, hseen, hlt]
  · intro startKey endKey e he
    exact secRangeGetLoop_mono mt snapshot topK _ acc seen e he

/-- C4 witness: the amended admission theorem applied to the concrete memtable
`mtC4`: candidate "a" admitted from an empty accumulator in both the point
and range loops, and candidate "b" skipped (not returned from) by the range
bucket loop once the accumulator is full. -/
theorem c4_admission_witness :
    mtC4.primary "a" 10 = .found (.jobject [("age", .jstring "5")]) 256 ∧
      ExtractKeyFromJSON (.jobject [("age", .jstring "5")]) mtC4.secondary_attribute = .ok "5" ∧
      secGetLoop mtC4 "5" 10 1 ["a"] [] ∅ =
        secGetLoop mtC4 "5" 10 1 []
          (skrvPush [] ⟨"a", .jobject [("age", .jstring "5")], 256⟩) (insert "a" ∅) ∧
      secRangeBucketLoop mtC4 "5" 10 1 ["a"] [] ∅ =
        secRangeBucketLoop mtC4 "5" 10 1 []
          (skrvPush [] ⟨"a", .jobject [("age", .jstring "5")], 256⟩) (insert "a" ∅) ∧
      secRangeBucketLoop mtC4 "5" 10 1 ["b"]
          [⟨"a", .jobject [("age", .jstring "5")], 256⟩] {"a"} =
        secRangeBucketLoop mtC4 "5" 10 1 []
          [⟨"a", .jobject [("age", .jstring "5")], 256⟩] {"a"} := by
  refine ⟨by rfl, by rfl, ?_, ?_, ?_⟩
  · have h := c4_admission mtC4 "5" 10 1 "a" [] [] ∅
      (.jobject [("age", .jstring "5")]) 256 (by rfl) (by rfl)
    exact h.2.1 (by decide) (by simp)
  · have h := c4_admission mtC4 "5" 10 1 "a" [] [] ∅
      (.jobject [("age", .jstring "5")]) 256 (by rfl) (by rfl)
    exact h.2.2.2.2.2.1 (by decide) (by simp)
  · have h := c4_admission mtC4 "5" 10 1 "b" []
      [⟨"a", .jobject [("age", .jstring "5")], 256⟩] {"a"}
      (.jobject [("age", .jstring "5")]) 2560 (by rfl) (by rfl)
    exact h.2.2.2.2.1 (by decide)

/-- Concrete memtable for the C5 counterexample.  The inverted list at "5"
holds "a" (older, live and matching at the snapshot with tag 256) and "b"
(newest, but deleted at the snapshot). -/
def mtC5 : MemTableModel where
  secondary_table := [("5", ["a", "b"])]
  primary := fun pkey _ =>
    if pkey = "a" then .found (.jobject [("age", .jstring "5")]) 256
    else .deleted
  secondary_attribute := "age"

/-- C5 counterexample: the newest entry "b" is deleted at the snapshot; the
claim says it is skipped and the remaining older entry "a" (live, matching)
is still examined and admitted, but the code returns immediately, so the
lookup yields nothing at all. -/
theorem c5_skip_counterexample :
    MemTableGet mtC5 "5" 10 5 [] ∅ = ([], ∅) ∧
      mtC5.primary "a" 10 = .found (.jobject [("age", .jstring "5")]) 256 ∧
      ExtractKeyFromJSON (.jobject [("age", .jstring "5")]) "age" = .ok "5" := by
  refine ⟨by rfl, by rfl, by rfl⟩

/-- C5 (amended): in the point-lookup loop, a candidate whose primary key is
absent or deleted at the snapshot, or whose re-read payload fails
secondary-value re-extraction, aborts the call: the accumulator and seen set
are returned as they are and the remaining (older) entries are not examined. -/
theorem c5_bad_entry_aborts (mt : MemTableModel) (skey : String)
    (snapshot topK : Nat) (pkey : String) (rest : List String)
    (acc : List SecondaryKeyReturnVal) (seen : Finset String)
    (hlen : acc.length < topK)
    (hbad : mt.primary pkey snapshot = .absent ∨
      mt.primary pkey snapshot = .deleted ∨
      ∃ sv tag msg, mt.primary pkey snapshot = .found sv tag ∧
        ExtractKeyFromJSON sv mt.secondary_attribute = .error msg) :
    secGetLoop mt skey snapshot topK (pkey :: rest) acc seen = (acc, seen) := by
  unfold secGetLoop
  rw [if_neg (not_le_of_lt hlen)]
  rcases hbad with hp | hp | ⟨sv, tag, msg, hp, hx⟩
  · simp [secLookupBody, hp]
  · simp [secLookupBody, hp]
  · simp [secLookupBody, hp, hx]

/-- C5 witness: the amended theorem applied to `mtC5` at the deleted
candidate "b". -/
theorem c5_bad_entry_aborts_witness :
    ([] : List SecondaryKeyReturnVal).length < 5 ∧
      mtC5.primary "b" 10 = .deleted ∧
      secGetLoop mtC5 "5" 10 5 ["b", "a"] [] ∅ = ([], ∅) := by
  refine ⟨by decide, by rfl, ?_⟩
  exact c5_bad_entry_aborts mtC5 "5" 10 5 "b" ["a"] [] ∅ (by decide)
    (Or.inr (Or.inl (by rfl)))

/-- Decoding of a fixed 64-bit little-endian integer from a byte list
(util/coding `DecodeFixed64`); internal keys are modeled as byte lists. -/
def decodeFixed64 (bytes : List Nat) : Nat :=
  (bytes.take 8).reverse.foldl (fun acc b => acc * 256 + b) 0

/-- Options fields consulted by `TableBuilder::Add`: the secondary attribute
name, the ITree-mode switch, whether a filter policy is configured (both
`filter_block` and `secondary_filter_block` are non-null exactly when
`options.filter_policy != nullptr`), and the block-size threshold. -/
structure BuilderOptions where
  secondary_key : String
  interval_tree_file_name : String
  hasFilterPolicy : Bool
  block_size : Nat
deriving DecidableEq, Repr

/-- Externally visible actions of the builder recorded by the model: an
interval-tree insertion at a block boundary (the C++ id is the decimal file
number, '+', and the block's last user key with its 8-byte tag stripped), and
a data-block flush. -/
inductive BuildEvent where
  | insertIntervalEv (fileNumber : Nat) (userKey : List Nat)
      (lo hi : String) (ts : Nat) : BuildEvent
  | flushEv (entries : List (List Nat × JSONValue)) : BuildEvent
deriving DecidableEq, Repr

/-- Model of the `TableBuilder::Rep` state touched by `Add`/`Flush`
(table_builder.cc): the current data block's entries, the parallel
interval-block entries, the per-block secondary range `(min_sec_value,
max_sec_value, max_sec_seq_number)`, the table-level `(smallest_sec,
largest_sec)`, the keys fed to the two filter builders, and the pending-index
flag.  Block contents handed to `BlockBuilder` (external) are recorded as
entry lists. -/
structure BuilderRep where
  last_key : List Nat
  num_entries : Nat
  data_block : List (List Nat × JSONValue)
  interval_block : List (String × String)
  index_entries : List (List Nat)
  pending_index_entry : Bool
  min_sec_value : String
  max_sec_value : String
  max_sec_seq_number : Nat
  filter_keys : List (List Nat)
  secondary_filter_keys : List (String × List Nat)
  smallest_sec : String
  largest_sec : String
  events : List BuildEvent
deriving DecidableEq, Repr

/-- The builder state at construction (`TableBuilder::Rep::Rep`). -/
def initialBuilderRep : BuilderRep where
  last_key := []
  num_entries := 0
  data_block := []
  interval_block := []
  index_entries := []
  pending_index_entry := false
  min_sec_value := ""
  max_sec_value := ""
  max_sec_seq_number := 0
  filter_keys := []
  secondary_filter_keys := []
  smallest_sec := ""
  largest_sec := ""
  events := []

/-- Model of `TableBuilder::Flush` (table_builder.cc lines 242-259): an empty
data block is a no-op; otherwise the block is written (recorded as an event),
the data block resets, and an index entry becomes pending.  The filter
builders' `StartBlock` calls only touch external filter state. -/
def builderFlush (r : BuilderRep) : BuilderRep :=
  if r.data_block = [] then r
  else
    { r with
      data_block := []
      pending_index_entry := true
      events := r.events ++ [.flushEv r.data_block] }

/-- Model of the pending-index-entry prologue of `TableBuilder::Add`
(table_builder.cc lines 143-176): emit the finished block's interval either
into the ITree or into the in-file interval block, update the table-level
secondary range (with the else-if chain exactly as written), reset the
per-block range, and add the index entry.  The comparator's
`FindShortestSeparator` is external and is modeled as leaving `last_key`
unchanged (a legal implementation of its contract). -/
def builderPending (opts : BuilderOptions) (fileNumber : Nat)
    (r : BuilderRep) : BuilderRep :=
  let r :=
    if opts.interval_tree_file_name ≠ "" then
      { r with
        events := r.events ++
          [.insertIntervalEv fileNumber
            (r.last_key.take (r.last_key.length - 8))
            r.min_sec_value r.max_sec_value r.max_sec_seq_number] }
    else
      { r with interval_block := r.interval_block ++ [(r.min_sec_value, r.max_sec_value)] }
  let r :=
    if r.smallest_sec = "" then
      { r with smallest_sec := r.min_sec_value, largest_sec := r.max_sec_value }
    else if r.smallest_sec > r.min_sec_value then
      { r with smallest_sec := r.min_sec_value }
    else if r.largest_sec < r.max_sec_value then
      { r with largest_sec := r.max_sec_value }
    else r
  { r with
    min_sec_value := ""
    max_sec_value := ""
    max_sec_seq_number := 0
    index_entries := r.index_entries ++ [r.last_key]
    pending_index_entry := false }

/-- Model of the early-return tail of `TableBuilder::Add` taken when
secondary-value extraction fails (table_builder.cc lines 191-198): the entry
goes into the data block and the counters update, but the
`max_sec_seq_number` update of lines 227-234 is NOT executed.
`CurrentSizeEstimate` of the external `BlockBuilder` is abstracted as the
function argument `est`. -/
def builderAddData (est : List (List Nat × JSONValue) → Nat)
    (opts : BuilderOptions) (key : List Nat) (value : JSONValue)
    (r : BuilderRep) : BuilderRep :=
  let r :=
    { r with
      last_key := key
      num_entries := r.num_entries + 1
      data_block := r.data_block ++ [(key, value)] }
  if est r.data_block ≥ opts.block_size then builderFlush r else r

/-- Model of the normal tail of `TableBuilder::Add` (table_builder.cc lines
223-239): the entry goes into the data block, then its sequence number
(decoded from the last 8 bytes of the internal key) raises
`max_sec_seq_number`, then the size check may flush. -/
def builderAddDataSeq (est : List (List Nat × JSONValue) → Nat)
    (opts : BuilderOptions) (key : List Nat) (value : JSONValue)
    (r : BuilderRep) : BuilderRep :=
  let r :=
    { r with
      last_key := key
      num_entries := r.num_entries + 1
      data_block := r.data_block ++ [(key, value)] }
  let r :=
    if key.length ≥ 8 then
      let seq := decodeFixed64 (key.drop (key.length - 8)) / 256
      if r.max_sec_seq_number < seq then { r with max_sec_seq_number := seq } else r
    else r
  if est r.data_block ≥ opts.block_size then builderFlush r else r

/-- Model of `TableBuilder::Add` (table_builder.cc lines 135-240).  Note the
control flow of the secondary-filter section: with a filter policy configured,
an empty `secondary_key` RETURNS before the entry reaches the data block, and
a failed extraction takes the `builderAddData` tail (no sequence-number
update); only entries with an extracted secondary value update the per-block
range and feed the composite key into the secondary filter. -/
def TableBuilderAdd (opts : BuilderOptions)
    (est : List (List Nat × JSONValue) → Nat) (fileNumber : Nat)
    (key : List Nat) (value : JSONValue) (r : BuilderRep) : BuilderRep :=
  let r := if r.pending_index_entry then builderPending opts fileNumber r else r
  let r := if opts.hasFilterPolicy then { r with filter_keys := r.filter_keys ++ [key] } else r
  if opts.hasFilterPolicy then
    if opts.secondary_key = "" then r
    else
      match ExtractKeyFromJSON value opts.secondary_key with
      | .error _ => builderAddData est opts key value r
      | .ok sec =>
        let tag := key.drop (key.length - 8)
        let r := { r with secondary_filter_keys := r.secondary_filter_keys ++ [(sec, tag)] }
        let r :=
          if r.max_sec_value = "" ∨ r.max_sec_value < sec then
            { r with max_sec_value := sec } else r
        let r :=
          if r.min_sec_value = "" ∨ r.min_sec_value > sec then
            { r with min_sec_value := sec } else r
        builderAddDataSeq est opts key value r
  else builderAddDataSeq est opts key value r

/-- Options for the C6 counterexample: filter policy configured, secondary
attribute "age", ITree mode, block size large enough that no flush occurs. -/
def optsC6 : BuilderOptions := ⟨"age", "itree.str", true, 1000000⟩

/-- Internal key for the C6/C7 evaluations: one user byte followed by the
8-byte little-endian tag (sequence << 8) | type with sequence 42, type 1. -/
def keyC6 : List Nat := [65, 1, 42, 0, 0, 0, 0, 0, 0]

/-- C6 counterexample: an entry whose payload cannot yield a secondary value
(an unparseable payload) carries sequence number 42, yet after `Add` the
block's `max_sec_seq_number` is still 0 -- the failed-extraction path of
table_builder.cc returns at line 198, before the sequence-number update of
lines 227-234.  The entry does leave `(min_sec, max_sec)` unchanged and does
enter the data block. -/
theorem c6_failed_extraction_counterexample :
    (TableBuilderAdd optsC6 (fun _ => 0) 7 keyC6 .jnonobject
        initialBuilderRep).max_sec_seq_number = 0 ∧
      decodeFixed64 (keyC6.drop (keyC6.length - 8)) / 256 = 42 ∧
      (TableBuilderAdd optsC6 (fun _ => 0) 7 keyC6 .jnonobject
        initialBuilderRep).min_sec_value = "" ∧
      (TableBuilderAdd optsC6 (fun _ => 0) 7 keyC6 .jnonobject
        initialBuilderRep).max_sec_value = "" ∧
      (TableBuilderAdd optsC6 (fun _ => 0) 7 keyC6 .jnonobject
        initialBuilderRep).data_block = [(keyC6, .jnonobject)] := by
  refine ⟨by rfl, by rfl, by rfl, by rfl, by rfl⟩

/-- C6 (amended): when a secondary filter block exists (a filter policy is
configured) and the secondary key is set, an entry added mid-block whose
payload cannot yield a secondary value leaves the block's tracked
`max_sec_seq_number` unchanged -- its sequence number does NOT contribute --
while also leaving `(min_sec, max_sec)` unchanged; the entry still counts
toward `num_entries`. -/
theorem c6_failed_extraction (opts : BuilderOptions)
    (est : List (List Nat × JSONValue) → Nat) (fileNumber : Nat)
    (key : List Nat) (value : JSONValue) (r : BuilderRep) (msg : String)
    (hfp : opts.hasFilterPolicy = true) (hsk : opts.secondary_key ≠ "")
    (hx : ExtractKeyFromJSON value opts.secondary_key = .error msg)
    (hpend : r.pending_index_entry = false) :
    (TableBuilderAdd opts est fileNumber key value r).max_sec_seq_number =
        r.max_sec_seq_number ∧
      (TableBuilderAdd opts est fileNumber key value r).min_sec_value =
        r.min_sec_value ∧
      (TableBuilderAdd opts est fileNumber key value r).max_sec_value =
        r.max_sec_value ∧
      (TableBuilderAdd opts est fileNumber key value r).num_entries =
        r.num_entries + 1 := by
  simp only [TableBuilderAdd, hpend, hfp, hsk, hx, if_true, if_false,
    Bool.false_eq_true, ite_false, ite_true]
  simp only [builderAddData]
  split <;> simp_all [builderFlush]

/-- C6 witness: the amended theorem applied at `optsC6`, `keyC6` and an
unparseable payload on the initial builder state. -/
theorem c6_failed_extraction_witness :
    optsC6.hasFilterPolicy = true ∧ optsC6.secondary_key ≠ "" ∧
      ExtractKeyFromJSON .jnonobject optsC6.secondary_key =
        .error "key attribute not found in the document" ∧
      initialBuilderRep.pending_index_entry = false ∧
      (TableBuilderAdd optsC6 (fun _ => 0) 7 keyC6 .jnonobject
          initialBuilderRep).max_sec_seq_number =
        initialBuilderRep.max_sec_seq_number := by
  refine ⟨by rfl, by decide, by rfl, by rfl, ?_⟩
  exact (c6_failed_extraction optsC6 (fun _ => 0) 7 keyC6 .jnonobject
    initialBuilderRep "key attribute not found in the document"
    (by rfl) (by decide) (by rfl) (by rfl)).1

/-- Options for the C7 evaluation: filter policy configured but empty
secondary key. -/
def optsC7 : BuilderOptions := ⟨"", "itree.str", true, 1000000⟩

/-- Options for the C7 contrast: no filter policy, empty secondary key. -/
def optsC7nf : BuilderOptions := ⟨"", "itree.str", false, 1000000⟩

/-- C7 evaluation at the failing input: with a filter policy configured and an
empty `secondary_key`, `TableBuilder::Add` returns at line 184 before the
entry reaches the data block -- the data block, `last_key` and `num_entries`
are all left untouched, so the record never enters primary storage.  With no
filter policy (same key/value), the entry is appended as in the plain engine. -/
theorem c7_empty_secondary_key_drops_entry :
    (TableBuilderAdd optsC7 (fun _ => 0) 7 keyC6
        (.jobject [("age", .jstring "5")]) initialBuilderRep).data_block = [] ∧
      (TableBuilderAdd optsC7 (fun _ => 0) 7 keyC6
        (.jobject [("age", .jstring "5")]) initialBuilderRep).num_entries = 0 ∧
      (TableBuilderAdd optsC7 (fun _ => 0) 7 keyC6
        (.jobject [("age", .jstring "5")]) initialBuilderRep).last_key = [] ∧
      (TableBuilderAdd optsC7nf (fun _ => 0) 7 keyC6
        (.jobject [("age", .jstring "5")]) initialBuilderRep).data_block =
          [(keyC6, .jobject [("age", .jstring "5")])] ∧
      (TableBuilderAdd optsC7nf (fun _ => 0) 7 keyC6
        (.jobject [("age", .jstring "5")]) initialBuilderRep).num_entries = 1 := by
  refine ⟨by rfl, by rfl, by rfl, by rfl, by rfl⟩

/-- Model of `Interval2DTreeNode` (interval_tree.h lines 50-59): the `nil`
sentinel is a constructor, and the cached augmentation fields `max_high` /
`max_timestamp` are stored data exactly as in the C++ node.  Parent pointers
are represented by zipper contexts in the operations below. -/
inductive ITree where
  | nil : ITree
  | node (interval : Interval2DTree) (is_red : Bool) (max_high : String)
      (max_timestamp : Nat) (left right : ITree) : ITree
deriving DecidableEq, Repr

/-- Reading `x->interval`; the nil sentinel holds a default-constructed
interval. -/
def ITree.interval : ITree → Interval2DTree
  | .nil => ⟨"", "", "", 0⟩
  | .node iv _ _ _ _ _ => iv

/-- Reading `x->is_red`; `nil.is_red` is false (setDefaults). -/
def ITree.isRed : ITree → Bool
  | .nil => false
  | .node _ c _ _ _ _ => c

/-- Reading `x->max_high`. -/
def ITree.maxHigh : ITree → String
  | .nil => ""
  | .node _ _ mh _ _ _ => mh

/-- Reading `x->max_timestamp`. -/
def ITree.maxTs : ITree → Nat
  | .nil => 0
  | .node _ _ _ mt _ _ => mt

/-- Reading `x->left`. -/
def ITree.left : ITree → ITree
  | .nil => .nil
  | .node _ _ _ _ l _ => l

/-- Reading `x->right`. -/
def ITree.right : ITree → ITree
  | .nil => .nil
  | .node _ _ _ _ _ r => r

/-- The `x == &nil` test. -/
def ITree.isNil : ITree → Bool
  | .nil => true
  | _ => false

/-- Number of (non-nil) nodes of a subtree. -/
def ITree.size : ITree → Nat
  | .nil => 0
  | .node _ _ _ _ l r => 1 + l.size + r.size

/-- The intervals stored in a subtree, in pre-order. -/
def ITree.toList : ITree → List Interval2DTree
  | .nil => []
  | .node iv _ _ _ l r => iv :: (l.toList ++ r.toList)

/-- Setting a node's color (`x->is_red = b`); writing the sentinel's color is
a no-op on the tree value. -/
def setTopRed : ITree → Bool → ITree
  | .nil, _ => .nil
  | .node iv _ mh mt l r, b => .node iv b mh mt l r

/-- Model of `treeSetMaxFields` (interval_tree.cc 715-738): recompute a node's
cached pair (max_high, max_timestamp) from its own interval and the cached
fields of its non-nil children. -/
def setMaxFields (iv : Interval2DTree) (l r : ITree) : String × Nat :=
  match l, r with
  | .node _ _ lmh lmt _ _, .node _ _ rmh rmt _ _ =>
    (max3 iv.high lmh rmh, max3 iv.timestamp lmt rmt)
  | .node _ _ lmh lmt _ _, .nil => (max2 iv.high lmh, max2 iv.timestamp lmt)
  | .nil, .node _ _ rmh rmt _ _ => (max2 iv.high rmh, max2 iv.timestamp rmt)
  | .nil, .nil => (iv.high, iv.timestamp)

/-- The augmentation invariant of spec section 4.3 / claim C3: at every node
the cached `max_high` and `max_timestamp` equal the recomputation from the
node's own interval and its present children. -/
def augOKb : ITree → Bool
  | .nil => true
  | .node iv _ mh mt l r =>
    decide (mh = (setMaxFields iv l r).1) && decide (mt = (setMaxFields iv l r).2)
      && augOKb l && augOKb r

/-- Which side of its parent the focus of a zipper hangs on. -/
inductive ZDir where
  | left : ZDir
  | right : ZDir
deriving DecidableEq, Repr

/-- One ancestor frame of a zipper into the tree: the ancestor's own data, the
side on which the focus hangs, and the sibling subtree.  The C++ parent
pointers become a list of these frames, innermost first. -/
structure ZFrame where
  interval : Interval2DTree
  is_red : Bool
  max_high : String
  max_timestamp : Nat
  dir : ZDir
  sib : ITree
deriving DecidableEq, Repr

/-- Rebuilding the parent node from a frame and the focus subtree. -/
def ZFrame.rebuild (f : ZFrame) (t : ITree) : ITree :=
  match f.dir with
  | .left => .node f.interval f.is_red f.max_high f.max_timestamp t f.sib
  | .right => .node f.interval f.is_red f.max_high f.max_timestamp f.sib t

/-- Plugging a focus subtree back through a context. -/
def plugZ : List ZFrame → ITree → ITree
  | [], t => t
  | f :: c, t => plugZ c (f.rebuild t)

/-- Model of `treeLeftRotate` (interval_tree.cc 641-660) as a local rewrite:
the right child y moves up inheriting x's previously computed aggregates
(`y->max_high = x->max_high; y->max_timestamp = x->max_timestamp`), and x is
recomputed from its new children (`treeSetMaxFields(x)`); colors are not
touched.  On shapes the C++ never rotates (right child nil) this is the
identity. -/
def treeLeftRotate : ITree → ITree
  | .node xiv xred xmh xmt a (.node yiv yred _ _ b c) =>
    let xmf := setMaxFields xiv a b
    .node yiv yred xmh xmt (.node xiv xred xmf.1 xmf.2 a b) c
  | t => t

/-- Model of `treeRightRotate` (interval_tree.cc 663-682), mirror image. -/
def treeRightRotate : ITree → ITree
  | .node xiv xred xmh xmt (.node yiv yred _ _ b c) d =>
    let xmf := setMaxFields xiv c d
    .node yiv yred xmh xmt b (.node xiv xred xmf.1 xmf.2 c d)
  | t => t

/-- Model of the descent loop of `treeInsert` (interval_tree.cc 446-478): walk
down comparing low endpoints, update every visited node's cached fields with
the new node's high/timestamp, and record the path as a zipper context
(innermost frame first).  The new node's `max_high`/`max_timestamp` were set
to its own high/timestamp before the loop. -/
def insertDescend (z : Interval2DTree) : ITree → List ZFrame → List ZFrame
  | .nil, ctx => ctx
  | .node iv red mh mt l r, ctx =>
    let mh' := if mh < z.high then z.high else mh
    let mt' := if mt < z.timestamp then z.timestamp else mt
    if z.low < iv.low then insertDescend z l (⟨iv, red, mh', mt', .left, r⟩ :: ctx)
    else insertDescend z r (⟨iv, red, mh', mt', .right, l⟩ :: ctx)

/-- Model of `treeInsertFixup` (interval_tree.cc 481-521) on the zipper.  Each
red-uncle iteration recolors parent, uncle and grandparent and moves the focus
to the grandparent (consuming two frames); a black-uncle iteration rotates
within the grandparent subtree, after which the focus's parent is black and
the loop exits; the loop also exits when the parent is black or the focus is
the root, and finishes with `root->is_red = false`.  A red parent that is the
root cannot arise in a red-black tree; the model exits the loop there. -/
def treeInsertFixup : List ZFrame → ITree → ITree
  | [], z => setTopRed z false
  | p :: rest, z =>
    if p.is_red = false then setTopRed (plugZ (p :: rest) z) false
    else
      match rest with
      | [] => setTopRed (plugZ [p] z) false
      | g :: rest' =>
        match g.dir with
        | .left =>
          let y := g.sib
          if y.isRed then
            let pnode := ZFrame.rebuild { p with is_red := false } z
            let gnode : ITree :=
              .node g.interval true g.max_high g.max_timestamp pnode (setTopRed y false)
            treeInsertFixup rest' gnode
          else
            let psub :=
              match p.dir with
              | .right => treeLeftRotate (ZFrame.rebuild p z)
              | .left => ZFrame.rebuild p z
            let gnode : ITree :=
              .node g.interval true g.max_high g.max_timestamp (setTopRed psub false) y
            setTopRed (plugZ rest' (treeRightRotate gnode)) false
        | .right =>
          let y := g.sib
          if y.isRed then
            let pnode := ZFrame.rebuild { p with is_red := false } z
            let gnode : ITree :=
              .node g.interval true g.max_high g.max_timestamp (setTopRed y false) pnode
            treeInsertFixup rest' gnode
          else
            let psub :=
              match p.dir with
              | .left => treeRightRotate (ZFrame.rebuild p z)
              | .right => ZFrame.rebuild p z
            let gnode : ITree :=
              .node g.interval true g.max_high g.max_timestamp y (setTopRed psub false)
            setTopRed (plugZ rest' (treeLeftRotate gnode)) false

/-- Model of `treeInsert` (interval_tree.cc 446-478): descend to the
insertion point updating cached fields, attach the new red node, and fix up. -/
def treeInsert (z : Interval2DTree) (t : ITree) : ITree :=
  let ctx := insertDescend z t []
  treeInsertFixup ctx (.node z true z.high z.timestamp .nil .nil)

/-- Locating the node carrying a given interval id, with its zipper context.
The C++ reaches the node through the `storage` map's pointer; the model walks
the tree for the (unique) node whose interval id matches. -/
def findNode (idStr : String) : ITree → List ZFrame →
    Option (List ZFrame × ITree)
  | .nil, _ => none
  | .node iv red mh mt l r, ctx =>
    if iv.id = idStr then some (ctx, .node iv red mh mt l r)
    else
      match findNode idStr l (⟨iv, red, mh, mt, .left, r⟩ :: ctx) with
      | some res => some res
      | none => findNode idStr r (⟨iv, red, mh, mt, .right, l⟩ :: ctx)

/-- Model of `treeMinimum` (interval_tree.cc 618-623) on the zipper: follow
left children, accumulating frames, and return the leftmost node. -/
def treeMinimumZ : ITree → List ZFrame → Option (List ZFrame × ITree)
  | .nil, _ => none
  | .node iv red mh mt .nil r, ctx => some (ctx, .node iv red mh mt .nil r)
  | .node iv red mh mt (.node liv lred lmh lmt ll lr) r, ctx =>
    treeMinimumZ (.node liv lred lmh lmt ll lr) (⟨iv, red, mh, mt, .left, r⟩ :: ctx)

/-- Model of `treeMaxFieldsFixup` (interval_tree.cc 698-712) on the zipper:
walk outward from the focus recomputing each ancestor's cached fields with
`treeSetMaxFields`, stopping early as soon as a recomputation leaves both
fields unchanged; outer frames are left untouched after the early exit,
exactly as in the C++. -/
def treeMaxFieldsFixup : List ZFrame → ITree → List ZFrame
  | [], _ => []
  | f :: c, t =>
    let lc := match f.dir with | .left => t | .right => f.sib
    let rc := match f.dir with | .left => f.sib | .right => t
    let mf := setMaxFields f.interval lc rc
    let f' : ZFrame := { f with max_high := mf.1, max_timestamp := mf.2 }
    if mf.1 = f.max_high ∧ mf.2 = f.max_timestamp then f' :: c
    else f' :: treeMaxFieldsFixup c (f'.rebuild t)

/-- Recoloring a node's left child (`w->left->is_red = b`). -/
def setLeftRed : ITree → Bool → ITree
  | .nil, _ => .nil
  | .node iv c mh mt l r, b => .node iv c mh mt (setTopRed l b) r

/-- Recoloring a node's right child (`w->right->is_red = b`). -/
def setRightRed : ITree → Bool → ITree
  | .nil, _ => .nil
  | .node iv c mh mt l r, b => .node iv c mh mt l (setTopRed r b)

/-- Outcome of one iteration of the `treeDeleteFixup` while loop: either the
loop has terminated with the final tree, or it continues with a new focus and
context. -/
inductive DFStep where
  | done (t : ITree) : DFStep
  | continueFix (x : ITree) (ctx : List ZFrame) : DFStep

/-- One iteration of `treeDeleteFixup` (interval_tree.cc 559-615) for a focus
that is its parent's LEFT child (sibling w = p.sib).  Case 1 (red sibling)
recolors and left-rotates at the parent, splitting the parent frame in two and
making the new sibling the old sibling's left child; cases 2-4 then run on the
possibly updated frames within the same iteration, as in the C++. -/
def deleteFixupLeftStep (x : ITree) (p : ZFrame) (rest : List ZFrame) : DFStep :=
  let pr : ZFrame × List ZFrame :=
    match p.sib with
    | .node wiv true _ _ wl wr =>
      let pmf := setMaxFields p.interval x wl
      (⟨p.interval, true, pmf.1, pmf.2, .left, wl⟩,
        ⟨wiv, false, p.max_high, p.max_timestamp, .left, wr⟩ :: rest)
    | _ => (p, rest)
  let p2 := pr.1
  let rest2 := pr.2
  let w := p2.sib
  if w.left.isRed = false ∧ w.right.isRed = false then
    .continueFix (ZFrame.rebuild { p2 with sib := setTopRed w true } x) rest2
  else
    let w3 := if w.right.isRed = false then treeRightRotate (setTopRed (setLeftRed w false) true) else w
    let w4 := setRightRed (setTopRed w3 p2.is_red) false
    let pnode : ITree := .node p2.interval false p2.max_high p2.max_timestamp x w4
    .done (setTopRed (plugZ rest2 (treeLeftRotate pnode)) false)

/-- One iteration of `treeDeleteFixup` for a focus that is its parent's RIGHT
child (interval_tree.cc 587-611), mirror image of `deleteFixupLeftStep`. -/
def deleteFixupRightStep (x : ITree) (p : ZFrame) (rest : List ZFrame) : DFStep :=
  let pr : ZFrame × List ZFrame :=
    match p.sib with
    | .node wiv true _ _ wl wr =>
      let pmf := setMaxFields p.interval wr x
      (⟨p.interval, true, pmf.1, pmf.2, .right, wr⟩,
        ⟨wiv, false, p.max_high, p.max_timestamp, .right, wl⟩ :: rest)
    | _ => (p, rest)
  let p2 := pr.1
  let rest2 := pr.2
  let w := p2.sib
  if w.right.isRed = false ∧ w.left.isRed = false then
    .continueFix (ZFrame.rebuild { p2 with sib := setTopRed w true } x) rest2
  else
    let w3 := if w.left.isRed = false then treeLeftRotate (setTopRed (setRightRed w false) true) else w
    let w4 := setLeftRed (setTopRed w3 p2.is_red) false
    let pnode : ITree := .node p2.interval false p2.max_high p2.max_timestamp w4 x
    .done (setTopRed (plugZ rest2 (treeRightRotate pnode)) false)

/-- Model of the `treeDeleteFixup` while loop (interval_tree.cc 559-615).  The
loop runs while the focus is a black non-root node; every rotation arm ends
with `x = root` (loop exit) and the epilogue blackens the focus.  Termination
of the C++ loop relies on red-black invariants, so the model takes fuel; the
callers pass fuel exceeding the iteration count of any valid execution (each
iteration either consumes a context frame or terminates within two
iterations). -/
def treeDeleteFixup : Nat → ITree → List ZFrame → ITree
  | 0, x, ctx => plugZ ctx x
  | fuel + 1, x, ctx =>
    match ctx with
    | [] => setTopRed x false
    | p :: rest =>
      if x.isRed then plugZ (p :: rest) (setTopRed x false)
      else
        match p.dir with
        | .left =>
          match deleteFixupLeftStep x p rest with
          | .done t => t
          | .continueFix x' ctx' => treeDeleteFixup fuel x' ctx'
        | .right =>
          match deleteFixupRightStep x p rest with
          | .done t => t
          | .continueFix x' ctx' => treeDeleteFixup fuel x' ctx'

/-- Model of `treeDelete` (interval_tree.cc 524-556) for the node carrying the
given id.  The transplant surgery becomes zipper composition: when z has two
children, its successor y (the minimum of z's right subtree, whose left child
is nil) takes z's place keeping its own STALE cached fields and adopting z's
color, x = y's old right child fills y's old slot, and the context of x in the
resulting tree is y's path inside z's right subtree followed by the new y
frame and z's old context.  `treeMaxFieldsFixup` then repairs cached fields
from x's parent outward (with its early exit), and if the removed-color node
was black, `treeDeleteFixup` rebalances from x. -/
def treeDelete (idStr : String) (t : ITree) : ITree :=
  match findNode idStr t [] with
  | none => t
  | some (ctx, z) =>
    match z with
    | .nil => t
    | .node _ zred _ _ zl zr =>
      match zl, zr with
      | .nil, _ =>
        let x := zr
        let ctx' := treeMaxFieldsFixup ctx x
        if zred then plugZ ctx' x
        else treeDeleteFixup (2 * ctx'.length + 4) x ctx'
      | _, .nil =>
        let x := zl
        let ctx' := treeMaxFieldsFixup ctx x
        if zred then plugZ ctx' x
        else treeDeleteFixup (2 * ctx'.length + 4) x ctx'
      | _, _ =>
        match treeMinimumZ zr [] with
        | none => t
        | some (yctx, y) =>
          match y with
          | .nil => t
          | .node yiv yred ymh ymt _ yr =>
            let yframe : ZFrame := ⟨yiv, zred, ymh, ymt, .right, zl⟩
            let xctx := yctx ++ (yframe :: ctx)
            let x := yr
            let ctx' := treeMaxFieldsFixup xctx x
            if yred then plugZ ctx' x
            else treeDeleteFixup (2 * ctx'.length + 4) x ctx'

/-- Model of the registered top-K iterator's state (class `TopKIterator`,
interval_tree.h 135-154): its own `iterator_in_use` flag, the search interval
endpoints, the priority heap of (node, priority) pairs and the explored set.
C++ identifies heap/explored nodes by address; the model identifies them by
subtree value, which coincides with address identity on trees whose interval
ids are distinct (as insertInterval maintains). -/
structure TopKIterState where
  active : Bool
  searchLow : String
  searchHigh : String
  nodes : List (ITree × Nat)
  explored : List ITree
deriving DecidableEq

/-- Model of the `Interval2DTreeWithTopK` object state together with its (at
most one) registered iterator: the tree root, the keys of the `storage` map,
the prefix → suffix-set `ids` map, checkpoint bookkeeping, and the iterator
slot.  The checkpoint file itself is external I/O; `sync()`'s only modeled
effect is resetting the counter. -/
structure SysState where
  root : ITree
  storage : List String
  ids : List (String × List String)
  id_delim : Char
  sync_file : String
  sync_threshold : Nat
  sync_counter : Nat
  iterator_in_use : Bool
  iter : TopKIterState
deriving DecidableEq

/-- Model of `setDefaults` (interval_tree.cc 57-74). -/
def setDefaultsState : SysState where
  root := .nil
  storage := []
  ids := []
  id_delim := '+'
  sync_file := "interval.str"
  sync_threshold := 10000
  sync_counter := 0
  iterator_in_use := false
  iter := ⟨false, "", "", [], []⟩

/-- Splitting a character list at the first occurrence of the delimiter
(which is dropped); the second component is empty when the delimiter is
absent. -/
def splitChars : List Char → Char → List Char × List Char
  | [], _ => ([], [])
  | c :: cs, d =>
    if c = d then ([], cs)
    else
      let r := splitChars cs d
      (c :: r.1, r.2)

/-- Model of the file-static `split` (interval_tree.cc 16-28): `getline` up to
the first delimiter, then the rest of the stream. -/
def splitId (s : String) (delim : Char) : String × String :=
  let r := splitChars s.data delim
  (String.mk r.1, String.mk r.2)

/-- Association-list find for the `ids` map. -/
def idsFind : List (String × List String) → String → Option (List String)
  | [], _ => none
  | (k, v) :: rest, key => if k = key then some v else idsFind rest key

/-- unordered_set insert: append if absent. -/
def listInsertNew (l : List String) (s : String) : List String :=
  if s ∈ l then l else l ++ [s]

/-- Adding a suffix to a key's suffix set in the `ids` map (creating nothing:
the caller has already ensured the key exists). -/
def idsAddSuffix (ids : List (String × List String)) (k sfx : String) :
    List (String × List String) :=
  ids.map fun p => if p.1 = k then (p.1, listInsertNew p.2 sfx) else p

/-- Removing a suffix from a key's suffix set in the `ids` map. -/
def idsEraseSuffix (ids : List (String × List String)) (k sfx : String) :
    List (String × List String) :=
  ids.map fun p => if p.1 = k then (p.1, p.2.filter (· ≠ sfx)) else p

/-- Removing a key from the `ids` map. -/
def idsEraseKey (ids : List (String × List String)) (k : String) :
    List (String × List String) :=
  ids.filter (fun p => p.1 ≠ k)

/-- Model of `TopKIterator::stop(true)` (interval_tree.cc 834-845) on the
registered iterator: release the tree's slot and clear the iterator's heap,
explored set and flag (the search interval is retained). -/
def iteratorStop (sys : SysState) : SysState :=
  if sys.iter.active then
    { sys with
      iterator_in_use := false
      iter := ⟨false, sys.iter.searchLow, sys.iter.searchHigh, [], []⟩ }
  else sys

/-- Model of `Interval2DTreeWithTopK::deleteInterval` (interval_tree.cc
164-182): stop a live iterator, and if the id is stored, remove it from the
`ids` map (dropping an emptied prefix entry), delete its node from the tree,
erase it from storage, and advance the checkpoint counter (sync() resets it
past the threshold). -/
def deleteInterval (sys : SysState) (idStr : String) : SysState :=
  let sys := if sys.iterator_in_use then iteratorStop sys else sys
  if idStr ∈ sys.storage then
    let r := splitId idStr sys.id_delim
    let ids1 := idsEraseSuffix sys.ids r.1 r.2
    let ids2 :=
      match idsFind ids1 r.1 with
      | some [] => idsEraseKey ids1 r.1
      | _ => ids1
    let sys :=
      { sys with
        ids := ids2
        root := treeDelete idStr sys.root
        storage := sys.storage.filter (· ≠ idStr) }
    let c := sys.sync_counter + 1
    if c > sys.sync_threshold then { sys with sync_counter := 0 }
    else { sys with sync_counter := c }
  else sys

/-- Model of `Interval2DTreeWithTopK::insertInterval` (interval_tree.cc
128-162): stop a live iterator FIRST, then reject an empty id; otherwise
delete a previously stored interval with the same (split) id, record the id,
insert the node, and advance the checkpoint counter. -/
def insertInterval (sys : SysState) (idStr minKey maxKey : String)
    (maxTimestamp : Nat) : SysState :=
  let sys := if sys.iterator_in_use then iteratorStop sys else sys
  if idStr = "" then sys
  else
    let r := splitId idStr sys.id_delim
    let sys :=
      match idsFind sys.ids r.1 with
      | none => { sys with ids := sys.ids ++ [(r.1, [])] }
      | some sfx => if r.2 ∈ sfx then deleteInterval sys idStr else sys
    let sys := { sys with ids := idsAddSuffix sys.ids r.1 r.2 }
    let sys := { sys with storage := listInsertNew sys.storage idStr }
    let sys :=
      { sys with root := treeInsert ⟨idStr, minKey, maxKey, maxTimestamp⟩ sys.root }
    let c := sys.sync_counter + 1
    if c > sys.sync_threshold then { sys with sync_counter := 0 }
    else { sys with sync_counter := c }

/-- One mutation of the interval tree store. -/
inductive ITreeOp where
  | insertIv (idStr minKey maxKey : String) (ts : Nat) : ITreeOp
  | deleteIv (idStr : String) : ITreeOp
deriving DecidableEq, Repr

/-- Applying one operation. -/
def applyOp (sys : SysState) : ITreeOp → SysState
  | .insertIv idStr minKey maxKey ts => insertInterval sys idStr minKey maxKey ts
  | .deleteIv idStr => deleteInterval sys idStr

/-- Applying a sequence of operations from the given state. -/
def applyOps (ops : List ITreeOp) (sys : SysState) : SysState :=
  ops.foldl applyOp sys

/-- Popping an entry of maximal priority from the heap list.  The C++ uses a
std::push_heap/pop_heap binary max-heap on the priority (`heapCompare`,
interval_tree.cc 750-755); the model represents the heap as the multiset of
its entries and pops one entry with maximal priority (ties resolved
deterministically by position). -/
def heapPopMax : List (ITree × Nat) → Option ((ITree × Nat) × List (ITree × Nat))
  | [] => none
  | e :: es =>
    match heapPopMax es with
    | none => some (e, [])
    | some (m, rest) => if e.2 ≥ m.2 then some (e, es) else some (m, e :: rest)

/-- Model of one iteration of the while loop in `TopKIterator::next`
(interval_tree.cc 784-821): pop a maximal-priority entry; unless the node was
already explored, push each non-nil child whose `max_high` reaches the query's
low endpoint (with the child's `max_timestamp` as priority); then test the
node's interval against the search interval: an intersecting node whose own
timestamp is below its popped priority is re-enqueued with its own timestamp
and marked explored, an intersecting node popped at its own timestamp is
yielded, and a non-intersecting node is dropped.  `none` means the heap was
empty (the loop ends, next() returns false).  `pushedChildren` is the
children-push block (interval_tree.cc 790-802). -/
def pushedChildren (x : ITree) (low : String) : List (ITree × Nat) :=
  (if x.left ≠ ITree.nil ∧ low ≤ x.left.maxHigh then [(x.left, x.left.maxTs)] else []) ++
    (if x.right ≠ ITree.nil ∧ low ≤ x.right.maxHigh then [(x.right, x.right.maxTs)] else [])

def iterStep (st : TopKIterState) : Option (Option Interval2DTree × TopKIterState) :=
  match heapPopMax st.nodes with
  | none => none
  | some (e, rest) =>
    let x := e.1
    let p := e.2
    let search : Interval2DTree := ⟨"", st.searchLow, st.searchHigh, 0⟩
    let nodes1 :=
      if x ∈ st.explored then rest
      else rest ++ pushedChildren x st.searchLow
    if overlapsB x.interval search then
      let t := x.interval.timestamp
      if t < p then
        some (none, { st with nodes := nodes1 ++ [(x, t)], explored := x :: st.explored })
      else
        some (some x.interval, { st with nodes := nodes1 })
    else some (none, { st with nodes := nodes1 })

/-- The while loop of `next()` driven for at most `fuel` iterations. -/
def iterNextAux : Nat → TopKIterState → Option (Interval2DTree × TopKIterState)
  | 0, _ => none
  | fuel + 1, st =>
    match iterStep st with
    | none => none
    | some (some iv, st') => some (iv, st')
    | some (none, st') => iterNextAux fuel st'

/-- Weight of a heap entry for the loop measure: a fresh node may push its
children and re-enqueue itself, an explored node is popped for good. -/
def entryWeight (explored : List ITree) (e : ITree × Nat) : Nat :=
  if e.1 ∈ explored then 1 else 4 * e.1.size + 1

/-- Upper bound on the remaining while-loop iterations of the iterator. -/
def iterMeasure (st : TopKIterState) : Nat :=
  (st.nodes.map (entryWeight st.explored)).sum

/-- Model of `TopKIterator::next` (interval_tree.cc 779-825): `none` is the
C++ `return false` (iterator inactive or heap exhausted).  The fuel
`iterMeasure st + 1` strictly exceeds the number of loop iterations any run
from `st` can take (each iteration strictly decreases the measure), so the
fueled loop is exact. -/
def topkNext (st : TopKIterState) : Option (Interval2DTree × TopKIterState) :=
  if st.active then iterNextAux (iterMeasure st + 1) st else none

/-- Driving `next()` up to `k` times, collecting the yielded intervals and the
final iterator state. -/
def topkRun : Nat → TopKIterState → List Interval2DTree × TopKIterState
  | 0, st => ([], st)
  | k + 1, st =>
    match topkNext st with
    | none => ([], st)
    | some (iv, st') =>
      let r := topkRun k st'
      (iv :: r.1, r.2)

/-- Model of constructing a `TopKIterator` (ctor + `start`, interval_tree.cc
758-768 and 848-862): on a non-empty tree with a free slot, the tree registers
the iterator, whose heap starts with the root at priority `root->max_timestamp`;
otherwise construction fails, the tree state is untouched, and the iterator is
left inactive (with a default-constructed search interval). -/
def mkTopKIterator (sys : SysState) (minKey maxKey : String) :
    SysState × TopKIterState :=
  if sys.root ≠ ITree.nil ∧ sys.iterator_in_use = false then
    let it : TopKIterState :=
      ⟨true, minKey, maxKey, [(sys.root, sys.root.maxTs)], []⟩
    ({ sys with iterator_in_use := true, iter := it }, it)
  else (sys, ⟨false, "", "", [], []⟩)

/-- The eight-operation sequence exhibiting the stale-cache bug: seven point
intervals inserted (producing the red-black tree
f(black){d(black), m(red){h(black), p(black){n(red), t(red)}}} with correct
caches), then the two-child node "m" deleted. -/
def c3ops : List ITreeOp :=
  [ .insertIv "f" "f" "f" 0, .insertIv "d" "d" "d" 0, .insertIv "m" "m" "m" 0,
    .insertIv "h" "h" "h" 0, .insertIv "p" "p" "p" 0, .insertIv "n" "n" "n" 0,
    .insertIv "t" "t" "t" 0, .deleteIv "m" ]

/-- The state reached by that sequence. -/
def sysStale : SysState := applyOps c3ops setDefaultsState

/-- C3 evaluation at the failing input: deleting "m" promotes its successor
"n" (red, so no rebalancing runs); `treeMaxFieldsFixup` starts at the old
parent "p" of the successor, finds its recomputation unchanged
(max2("p","t") = max3("p","n","t") = "t") and exits early, below the
transplanted node "n", whose cached fields are stale for its new position:
"n"'s max_high stays "n" although its subtree holds the high "t".  The
augmentation equation of the claim fails at node "n". -/
theorem c3_augmentation_violated :
    augOKb sysStale.root = false ∧
      sysStale.root.right.interval.id = "n" ∧
      sysStale.root.right.maxHigh = "n" ∧
      "t" ∈ (sysStale.root.right.toList.map fun iv => iv.high) := by
  refine ⟨by rfl, by rfl, by rfl, by decide⟩

/-- C1 counterexample: on the quiescent tree reached by `c3ops`, the query
["t","t"] intersects the stored interval "t", but the iterator yields nothing:
the stale cached max_high "n" at the root's right child makes `next()` prune
that entire subtree, so the yielded set is not the set of stored intersecting
intervals. -/
theorem c1_stale_cache_counterexample :
    (topkRun 20 (mkTopKIterator sysStale "t" "t").2).1 = [] ∧
      ((sysStale.root.toList.filter fun iv =>
        overlapsB iv ⟨"", "t", "t", 0⟩).map fun iv => iv.id) = ["t"] := by
  refine ⟨by rfl, by rfl⟩

/-- C9: inserting with an empty id leaves the tree, the storage map, the ids
map and the checkpoint counter unchanged, yet still cancels a live top-K
iterator, because `iterator->stop()` runs before the id is validated.  The
hypothesis states the registration invariant: a registered iterator is active. -/
theorem c9_insert_empty_id (sys : SysState) (lo hi : String) (ts : Nat)
    (hreg : sys.iterator_in_use = true → sys.iter.active = true) :
    (insertInterval sys "" lo hi ts).root = sys.root ∧
      (insertInterval sys "" lo hi ts).storage = sys.storage ∧
      (insertInterval sys "" lo hi ts).ids = sys.ids ∧
      (insertInterval sys "" lo hi ts).sync_counter = sys.sync_counter ∧
      (insertInterval sys "" lo hi ts).iterator_in_use = false ∧
      (sys.iterator_in_use = true →
        (insertInterval sys "" lo hi ts).iter.active = false ∧
        (insertInterval sys "" lo hi ts).iter.nodes = [] ∧
        (insertInterval sys "" lo hi ts).iter.explored = []) := by
  unfold insertInterval
  by_cases hu : sys.iterator_in_use
  · have ha := hreg hu
    simp [hu, iteratorStop, ha]
  · simp [hu]

/-- A state with a live iterator over a one-node tree, for the C9 witness. -/
def sysLiveIter : SysState :=
  (mkTopKIterator
    { setDefaultsState with
      root := .node ⟨"a+b", "l", "m", 3⟩ false "m" 3 .nil .nil
      storage := ["a+b"]
      ids := [("a", ["b"])] } "l" "m").1

/-- C9 witness: the theorem applied to a state whose iterator slot is live. -/
theorem c9_insert_empty_id_witness :
    (sysLiveIter.iterator_in_use = true → sysLiveIter.iter.active = true) ∧
      (insertInterval sysLiveIter "" "x" "y" 7).root = sysLiveIter.root ∧
      (insertInterval sysLiveIter "" "x" "y" 7).iterator_in_use = false ∧
      (insertInterval sysLiveIter "" "x" "y" 7).iter.nodes = [] := by
  refine ⟨fun _ => by rfl, ?_, ?_, ?_⟩
  · exact (c9_insert_empty_id sysLiveIter "x" "y" 7 (fun _ => by rfl)).1
  · exact (c9_insert_empty_id sysLiveIter "x" "y" 7 (fun _ => by rfl)).2.2.2.2.1
  · exact ((c9_insert_empty_id sysLiveIter "x" "y" 7 (fun _ => by rfl)).2.2.2.2.2 (by rfl)).2.1

/-- C10: constructing a `TopKIterator` on an empty tree fails to start even
when no other iterator is live: the iterator is inactive, every `next()`
returns false regardless of fuel, the tree state (in particular the
single-iterator slot) is untouched, and a later construction on the same slot
over a non-empty tree succeeds. -/
theorem c10_empty_tree_iterator (sys : SysState) (lo hi lo2 hi2 : String)
    (hroot : sys.root = ITree.nil) (hfree : sys.iterator_in_use = false) :
    (mkTopKIterator sys lo hi).2.active = false ∧
      (mkTopKIterator sys lo hi).1 = sys ∧
      (∀ fuel, iterNextAux fuel (mkTopKIterator sys lo hi).2 = none) ∧
      topkNext (mkTopKIterator sys lo hi).2 = none ∧
      (∀ t : ITree, t ≠ ITree.nil →
        (mkTopKIterator { (mkTopKIterator sys lo hi).1 with root := t } lo2 hi2).2.active = true) := by
  have hmk : mkTopKIterator sys lo hi = (sys, ⟨false, "", "", [], []⟩) := by
    unfold mkTopKIterator
    rw [if_neg]
    intro h
    exact h.1 hroot
  refine ⟨by rw [hmk], by rw [hmk], ?_, ?_, ?_⟩
  · intro fuel
    rw [hmk]
    cases fuel with
    | zero => rfl
    | succ f => rfl
  · rw [hmk]
    rfl
  · intro t ht
    rw [hmk]
    unfold mkTopKIterator
    rw [if_pos ⟨ht, hfree⟩]

/-- C10 witness: the theorem applied to the default (empty) state, with the
follow-up construction on a one-node tree. -/
theorem c10_empty_tree_iterator_witness :
    setDefaultsState.root = ITree.nil ∧
      setDefaultsState.iterator_in_use = false ∧
      (mkTopKIterator setDefaultsState "a" "b").2.active = false ∧
      (mkTopKIterator
        { (mkTopKIterator setDefaultsState "a" "b").1 with
          root := .node ⟨"i", "l", "m", 1⟩ false "m" 1 .nil .nil } "c" "d").2.active = true := by
  refine ⟨by rfl, by rfl, ?_, ?_⟩
  · exact (c10_empty_tree_iterator setDefaultsState "a" "b" "c" "d" (by rfl) (by rfl)).1
  · exact (c10_empty_tree_iterator setDefaultsState "a" "b" "c" "d" (by rfl) (by rfl)).2.2.2.2
      (.node ⟨"i", "l", "m", 1⟩ false "m" 1 .nil .nil) (by simp)

/-- The iterator's search interval (`search_int`). -/
def searchOf (st : TopKIterState) : Interval2DTree :=
  ⟨"", st.searchLow, st.searchHigh, 0⟩

/-- Union of a list of finite sets. -/
def finsetUnionList (l : List (Finset Interval2DTree)) : Finset Interval2DTree :=
  l.foldr (· ∪ ·) ∅

theorem mem_finsetUnionList (l : List (Finset Interval2DTree)) (a : Interval2DTree) :
    a ∈ finsetUnionList l ↔ ∃ s ∈ l, a ∈ s := by
  induction l with
  | nil => simp [finsetUnionList]
  | cons s rest ih => simp [finsetUnionList, Finset.mem_union, ih.symm]

/-- The intervals a heap entry still stands for: an explored node delivers
exactly its own interval when re-popped; a fresh node stands for every
intersecting interval of its subtree. -/
def pendingOf (explored : List ITree) (q : Interval2DTree) (e : ITree × Nat) :
    Finset Interval2DTree :=
  if e.1 ∈ explored then {e.1.interval}
  else (e.1.toList.filter fun iv => overlapsB iv q).toFinset

/-- Every interval the iterator will still yield from a state. -/
def pendingSet (st : TopKIterState) : Finset Interval2DTree :=
  finsetUnionList (st.nodes.map (pendingOf st.explored (searchOf st)))

/-- The interval ids a heap entry accounts for. -/
def idsOfEntry (explored : List ITree) (e : ITree × Nat) : List String :=
  if e.1 ∈ explored then [e.1.interval.id]
  else e.1.toList.map fun iv => iv.id

/-- Greatest priority in the heap (0 when empty). -/
def maxPrio (st : TopKIterState) : Nat :=
  (st.nodes.map fun e => e.2).foldr max 0

theorem le_foldr_max (l : List Nat) (a : Nat) (h : a ∈ l) : a ≤ l.foldr max 0 := by
  induction l with
  | nil => cases h
  | cons b rest ih =>
    rcases List.mem_cons.mp h with rfl | h'
    · exact le_max_left _ _
    · exact le_trans (ih h') (le_max_right _ _)

theorem foldr_max_le (l : List Nat) (b : Nat) (h : ∀ a ∈ l, a ≤ b) :
    l.foldr max 0 ≤ b := by
  induction l with
  | nil => exact Nat.zero_le b
  | cons a rest ih =>
    exact max_le (h a (List.mem_cons_self _ _)) (ih fun a' h' => h a' (List.mem_cons_of_mem _ h'))

/-- Invariant of the running iterator's heap/explored state over a tree with
correct caches, well-formed intervals and distinct ids. -/
structure IterInv (st : TopKIterState) : Prop where
  entries_nonnil : ∀ e ∈ st.nodes, e.1 ≠ ITree.nil
  entries_aug : ∀ e ∈ st.nodes, augOKb e.1 = true
  entries_wf : ∀ e ∈ st.nodes, ∀ iv ∈ e.1.toList, iv.low ≤ iv.high
  entries_ids : ∀ e ∈ st.nodes, (e.1.toList.map fun iv => iv.id).Nodup
  prio_fresh : ∀ e ∈ st.nodes, e.1 ∉ st.explored → e.2 = e.1.maxTs
  prio_explored : ∀ e ∈ st.nodes, e.1 ∈ st.explored →
    e.2 = e.1.interval.timestamp ∧ overlapsB e.1.interval (searchOf st) = true
  all_ids_nodup : (st.nodes.map (idsOfEntry st.explored)).flatten.Nodup
  fresh_explored_disjoint : ∀ e ∈ st.nodes, e.1 ∉ st.explored →
    ∀ y ∈ st.explored, y.interval.id ∉ e.1.toList.map fun iv => iv.id
  explored_nonnil : ∀ y ∈ st.explored, y ≠ ITree.nil

theorem augOKb_node (iv : Interval2DTree) (c : Bool) (mh : String) (mt : Nat)
    (l r : ITree) :
    augOKb (.node iv c mh mt l r) = true ↔
      mh = (setMaxFields iv l r).1 ∧ mt = (setMaxFields iv l r).2 ∧
        augOKb l = true ∧ augOKb r = true := by
  simp [augOKb, Bool.and_eq_true, decide_eq_true_iff, and_assoc]

theorem setMaxFields_high_self (iv : Interval2DTree) (l r : ITree) :
    iv.high ≤ (setMaxFields iv l r).1 := by
  unfold setMaxFields
  cases l <;> cases r <;> simp [max2_eq, max3_eq, le_max_iff]

theorem setMaxFields_ts_self (iv : Interval2DTree) (l r : ITree) :
    iv.timestamp ≤ (setMaxFields iv l r).2 := by
  unfold setMaxFields
  cases l <;> cases r <;> simp [max2_eq, max3_eq, le_max_iff]

theorem setMaxFields_high_left (iv : Interval2DTree) (l r : ITree) :
    l.maxHigh ≤ (setMaxFields iv l r).1 := by
  unfold setMaxFields
  cases l <;> cases r <;>
    simp [ITree.maxHigh, max2_eq, max3_eq, le_max_iff, le_refl]

theorem setMaxFields_high_right (iv : Interval2DTree) (l r : ITree) :
    r.maxHigh ≤ (setMaxFields iv l r).1 := by
  unfold setMaxFields
  cases l <;> cases r <;>
    simp [ITree.maxHigh, max2_eq, max3_eq, le_max_iff, le_refl]

theorem setMaxFields_ts_left (iv : Interval2DTree) (l r : ITree) :
    l.maxTs ≤ (setMaxFields iv l r).2 := by
  unfold setMaxFields
  cases l <;> cases r <;>
    simp [ITree.maxTs, max2_eq, max3_eq, le_max_iff, le_refl]

theorem setMaxFields_ts_right (iv : Interval2DTree) (l r : ITree) :
    r.maxTs ≤ (setMaxFields iv l r).2 := by
  unfold setMaxFields
  cases l <;> cases r <;>
    simp [ITree.maxTs, max2_eq, max3_eq, le_max_iff, le_refl]

theorem aug_mem_high : ∀ (t : ITree), augOKb t = true →
    ∀ iv ∈ t.toList, iv.high ≤ t.maxHigh := by
  intro t
  induction t with
  | nil => intro _ iv h; cases h
  | node tiv c mh mt l r ihl ihr =>
    intro haug iv hm
    rcases (augOKb_node tiv c mh mt l r).mp haug with ⟨hmh, _, hl, hr⟩
    simp only [ITree.toList, List.mem_cons, List.mem_append] at hm
    rcases hm with rfl | h | h
    · exact hmh ▸ setMaxFields_high_self _ l r
    · exact le_trans (ihl hl iv h) (hmh ▸ setMaxFields_high_left _ l r)
    · exact le_trans (ihr hr iv h) (hmh ▸ setMaxFields_high_right _ l r)

theorem aug_mem_ts : ∀ (t : ITree), augOKb t = true →
    ∀ iv ∈ t.toList, iv.timestamp ≤ t.maxTs := by
  intro t
  induction t with
  | nil => intro _ iv h; cases h
  | node tiv c mh mt l r ihl ihr =>
    intro haug iv hm
    rcases (augOKb_node tiv c mh mt l r).mp haug with ⟨_, hmt, hl, hr⟩
    simp only [ITree.toList, List.mem_cons, List.mem_append] at hm
    rcases hm with rfl | h | h
    · exact hmt ▸ setMaxFields_ts_self _ l r
    · exact le_trans (ihl hl iv h) (hmt ▸ setMaxFields_ts_left _ l r)
    · exact le_trans (ihr hr iv h) (hmt ▸ setMaxFields_ts_right _ l r)

/-- Pruning soundness: a subtree whose cached max_high falls short of the
query's low endpoint holds no intersecting interval (given correct caches and
well-formed intervals). -/
theorem pruned_no_overlap (x : ITree) (q : Interval2DTree)
    (haug : augOKb x = true) (hwf : ∀ iv ∈ x.toList, iv.low ≤ iv.high)
    (hlt : x.maxHigh < q.low) :
    ∀ iv ∈ x.toList, overlapsB iv q = false := by
  intro iv hm
  have h1 : iv.high < q.low := lt_of_le_of_lt (aug_mem_high x haug iv hm) hlt
  unfold overlapsB
  split
  · simpa [decide_eq_false_iff_not, not_le] using h1
  · rename_i hnlt
    exact absurd (lt_of_le_of_lt (le_trans (not_lt.mp hnlt) (hwf iv hm)) h1)
      (lt_irrefl _)

theorem heapPopMax_eq_none (l : List (ITree × Nat)) :
    heapPopMax l = none ↔ l = [] := by
  cases l with
  | nil => simp [heapPopMax]
  | cons e es =>
    rw [heapPopMax]
    cases hes : heapPopMax es with
    | none => simp
    | some me =>
      obtain ⟨m, mrest⟩ := me
      by_cases hge : m.2 ≤ e.2 <;> simp [hge]

theorem heapPopMax_spec (l : List (ITree × Nat)) (e : ITree × Nat)
    (rest : List (ITree × Nat)) (h : heapPopMax l = some (e, rest)) :
    l.Perm (e :: rest) ∧ ∀ e' ∈ l, e'.2 ≤ e.2 := by
  induction l generalizing e rest with
  | nil => cases h
  | cons a es ih =>
    rw [heapPopMax] at h
    cases hes : heapPopMax es with
    | none =>
      have hnil : es = [] := (heapPopMax_eq_none es).mp hes
      subst hnil
      rw [hes] at h
      injection h with h'
      injection h' with h1 h2
      subst h1; subst h2
      exact ⟨List.Perm.refl _, by intro e' he'; rcases List.mem_cons.mp he' with rfl | h'' <;> simp_all⟩
    | some me =>
      obtain ⟨m, mrest⟩ := me
      rw [hes] at h
      rcases ih m mrest hes with ⟨hperm, hbound⟩
      dsimp only at h
      by_cases hge : m.2 ≤ a.2
      · rw [if_pos hge] at h
        injection h with h'
        injection h' with h1 h2
        subst h1; subst h2
        refine ⟨List.Perm.refl _, ?_⟩
        intro e' he'
        rcases List.mem_cons.mp he' with rfl | h''
        · exact le_refl _
        · exact le_trans (hbound e' h'') hge
      · rw [if_neg hge] at h
        injection h with h'
        injection h' with h1 h2
        subst h1; subst h2
        refine ⟨?_, ?_⟩
        · exact (hperm.cons a).trans (List.Perm.swap _ _ _)
        · intro e' he'
          rcases List.mem_cons.mp he' with rfl | h''
          · exact le_of_lt (lt_of_not_le hge)
          · exact hbound e' h''

theorem entryWeight_mono (x : ITree) (explored : List ITree) (e : ITree × Nat) :
    entryWeight (x :: explored) e ≤ entryWeight explored e := by
  unfold entryWeight
  by_cases h : e.1 ∈ explored
  · simp [h, List.mem_cons]
  · by_cases hx : e.1 = x
    · simp only [hx, List.mem_cons, true_or, if_pos, h]
      split
      · exact le_refl 1
      · exact Nat.le_add_left 1 _
    · simp [h, hx, List.mem_cons]

theorem finsetUnionList_perm (l l' : List (Finset Interval2DTree))
    (h : l.Perm l') : finsetUnionList l = finsetUnionList l' := by
  induction h with
  | nil => rfl
  | cons a h ih => simp [finsetUnionList] at ih ⊢; rw [ih]
  | swap a b l =>
    show b ∪ (a ∪ finsetUnionList l) = a ∪ (b ∪ finsetUnionList l)
    rw [← Finset.union_assoc, Finset.union_comm b a, Finset.union_assoc]
  | trans _ _ ih1 ih2 => exact ih1.trans ih2

theorem finsetUnionList_append (l l' : List (Finset Interval2DTree)) :
    finsetUnionList (l ++ l') = finsetUnionList l ∪ finsetUnionList l' := by
  induction l with
  | nil => simp [finsetUnionList]
  | cons a rest ih =>
    show a ∪ finsetUnionList (rest ++ l') = a ∪ finsetUnionList rest ∪ finsetUnionList l'
    rw [ih, Finset.union_assoc]

theorem pendingOf_congr (explored explored' : List ITree) (q : Interval2DTree)
    (e : ITree × Nat) (h : e.1 ∈ explored' ↔ e.1 ∈ explored) :
    pendingOf explored' q e = pendingOf explored q e := by
  unfold pendingOf
  by_cases hm : e.1 ∈ explored
  · rw [if_pos (h.mpr hm), if_pos hm]
  · rw [if_neg (fun hc => hm (h.mp hc)), if_neg hm]

theorem idsOfEntry_congr (explored explored' : List ITree) (e : ITree × Nat)
    (h : e.1 ∈ explored' ↔ e.1 ∈ explored) :
    idsOfEntry explored' e = idsOfEntry explored e := by
  unfold idsOfEntry
  by_cases hm : e.1 ∈ explored
  · rw [if_pos (h.mpr hm), if_pos hm]
  · rw [if_neg (fun hc => hm (h.mp hc)), if_neg hm]

theorem mem_pendingOf_id (explored : List ITree) (q : Interval2DTree)
    (e : ITree × Nat) (a : Interval2DTree) (h : a ∈ pendingOf explored q e) :
    a.id ∈ idsOfEntry explored e := by
  unfold pendingOf at h
  unfold idsOfEntry
  by_cases hm : e.1 ∈ explored
  · rw [if_pos hm] at h
    rw [if_pos hm]
    simp only [Finset.mem_singleton] at h
    simp [h]
  · rw [if_neg hm] at h
    rw [if_neg hm]
    simp only [List.mem_toFinset, List.mem_filter] at h
    exact List.mem_map_of_mem _ h.1

theorem mem_unionList_id (explored : List ITree) (q : Interval2DTree)
    (l : List (ITree × Nat)) (a : Interval2DTree)
    (h : a ∈ finsetUnionList (l.map (pendingOf explored q))) :
    a.id ∈ (l.map (idsOfEntry explored)).flatten := by
  rcases (mem_finsetUnionList _ _).mp h with ⟨s, hs, ha⟩
  rcases List.mem_map.mp hs with ⟨e, he, rfl⟩
  have := mem_pendingOf_id explored q e a ha
  exact List.mem_flatten.mpr ⟨idsOfEntry explored e, List.mem_map_of_mem _ he, this⟩

theorem toFinset_filter_node (xiv : Interval2DTree) (xc : Bool) (xmh : String)
    (xmt : Nat) (xl xr : ITree) (q : Interval2DTree) :
    ((ITree.node xiv xc xmh xmt xl xr).toList.filter fun iv => overlapsB iv q).toFinset =
      (if overlapsB xiv q then {xiv} else ∅) ∪
        ((xl.toList.filter fun iv => overlapsB iv q).toFinset ∪
          (xr.toList.filter fun iv => overlapsB iv q).toFinset) := by
  ext a
  simp only [ITree.toList, List.filter_cons, List.filter_append, Finset.mem_union,
    List.mem_toFinset, List.mem_filter]
  by_cases h : overlapsB xiv q
  · simp only [h, if_pos, ite_true, Finset.mem_singleton]
    constructor
    · intro hm
      rcases List.mem_cons.mp hm with rfl | hm'
      · exact Or.inl rfl
      · rcases List.mem_append.mp hm' with h' | h'
        · exact Or.inr (Or.inl (List.mem_filter.mp h'))
        · exact Or.inr (Or.inr (List.mem_filter.mp h'))
    · rintro (rfl | ⟨h1, h2⟩ | ⟨h1, h2⟩)
      · exact List.mem_cons_self _ _
      · exact List.mem_cons_of_mem _ (List.mem_append.mpr (Or.inl (List.mem_filter.mpr ⟨h1, h2⟩)))
      · exact List.mem_cons_of_mem _ (List.mem_append.mpr (Or.inr (List.mem_filter.mpr ⟨h1, h2⟩)))
  · rw [Bool.not_eq_true] at h
    simp only [h, Bool.false_eq_true, if_false, ite_false, Finset.not_mem_empty,
      false_or]
    constructor
    · intro hm
      rcases List.mem_append.mp hm with h' | h'
      · exact Or.inl (List.mem_filter.mp h')
      · exact Or.inr (List.mem_filter.mp h')
    · rintro (⟨h1, h2⟩ | ⟨h1, h2⟩)
      · exact List.mem_append.mpr (Or.inl (List.mem_filter.mpr ⟨h1, h2⟩))
      · exact List.mem_append.mpr (Or.inr (List.mem_filter.mpr ⟨h1, h2⟩))

theorem entryWeight_le (explored : List ITree) (e : ITree × Nat) :
    entryWeight explored e ≤ 4 * e.1.size + 1 := by
  unfold entryWeight
  split
  · exact Nat.le_add_left 1 _
  · exact le_refl _

theorem filter_empty_of_pruned (x : ITree) (q : Interval2DTree)
    (haug : augOKb x = true) (hwf : ∀ iv ∈ x.toList, iv.low ≤ iv.high)
    (hlt : ¬ q.low ≤ x.maxHigh) :
    (x.toList.filter fun iv => overlapsB iv q) = [] := by
  rw [List.filter_eq_nil_iff]
  intro iv h
  rw [pruned_no_overlap x q haug hwf (not_le.mp hlt) iv h]
  exact Bool.false_ne_true

theorem pushedChildren_pending (xiv : Interval2DTree) (xc : Bool) (xmh : String)
    (xmt : Nat) (xl xr : ITree) (q : Interval2DTree) (explored : List ITree)
    (haugl : augOKb xl = true) (haugr : augOKb xr = true)
    (hwfl : ∀ iv ∈ xl.toList, iv.low ≤ iv.high)
    (hwfr : ∀ iv ∈ xr.toList, iv.low ≤ iv.high)
    (hlex : xl ∉ explored) (hrex : xr ∉ explored) :
    finsetUnionList
        ((pushedChildren (ITree.node xiv xc xmh xmt xl xr) q.low).map
          (pendingOf explored q)) =
      (xl.toList.filter fun iv => overlapsB iv q).toFinset ∪
        (xr.toList.filter fun iv => overlapsB iv q).toFinset := by
  unfold pushedChildren
  rw [List.map_append, finsetUnionList_append]
  have hL : finsetUnionList
      ((if ITree.left (ITree.node xiv xc xmh xmt xl xr) ≠ ITree.nil ∧
          q.low ≤ (ITree.left (ITree.node xiv xc xmh xmt xl xr)).maxHigh then
        [(ITree.left (ITree.node xiv xc xmh xmt xl xr),
          (ITree.left (ITree.node xiv xc xmh xmt xl xr)).maxTs)] else []).map
        (pendingOf explored q)) =
      (xl.toList.filter fun iv => overlapsB iv q).toFinset := by
    show finsetUnionList ((if xl ≠ ITree.nil ∧ q.low ≤ xl.maxHigh then
      [(xl, xl.maxTs)] else []).map (pendingOf explored q)) = _
    split
    · show pendingOf explored q (xl, xl.maxTs) ∪ ∅ = _
      rw [Finset.union_empty]
      unfold pendingOf
      rw [if_neg hlex]
    · rename_i hc
      show (∅ : Finset Interval2DTree) = _
      by_cases hnil : xl = ITree.nil
      · subst hnil
        rfl
      · have hle : ¬ q.low ≤ xl.maxHigh := fun hle => hc ⟨hnil, hle⟩
        rw [filter_empty_of_pruned xl q haugl hwfl hle]
        rfl
  have hR : finsetUnionList
      ((if ITree.right (ITree.node xiv xc xmh xmt xl xr) ≠ ITree.nil ∧
          q.low ≤ (ITree.right (ITree.node xiv xc xmh xmt xl xr)).maxHigh then
        [(ITree.right (ITree.node xiv xc xmh xmt xl xr),
          (ITree.right (ITree.node xiv xc xmh xmt xl xr)).maxTs)] else []).map
        (pendingOf explored q)) =
      (xr.toList.filter fun iv => overlapsB iv q).toFinset := by
    show finsetUnionList ((if xr ≠ ITree.nil ∧ q.low ≤ xr.maxHigh then
      [(xr, xr.maxTs)] else []).map (pendingOf explored q)) = _
    split
    · show pendingOf explored q (xr, xr.maxTs) ∪ ∅ = _
      rw [Finset.union_empty]
      unfold pendingOf
      rw [if_neg hrex]
    · rename_i hc
      show (∅ : Finset Interval2DTree) = _
      by_cases hnil : xr = ITree.nil
      · subst hnil
        rfl
      · have hle : ¬ q.low ≤ xr.maxHigh := fun hle => hc ⟨hnil, hle⟩
        rw [filter_empty_of_pruned xr q haugr hwfr hle]
        rfl
  rw [hL, hR]

theorem pushedChildren_mem (x : ITree) (low : String) :
    ∀ e ∈ pushedChildren x low,
      (e = (x.left, x.left.maxTs) ∧ x.left ≠ ITree.nil) ∨
        (e = (x.right, x.right.maxTs) ∧ x.right ≠ ITree.nil) := by
  intro e he
  unfold pushedChildren at he
  rcases List.mem_append.mp he with h | h
  · left
    split at h
    · rename_i hc
      rcases List.mem_singleton.mp h with rfl
      exact ⟨rfl, hc.1⟩
    · cases h
  · right
    split at h
    · rename_i hc
      rcases List.mem_singleton.mp h with rfl
      exact ⟨rfl, hc.1⟩
    · cases h

theorem pushedChildren_weight (x : ITree) (low : String) (explored : List ITree) :
    ((pushedChildren x low).map (entryWeight explored)).sum ≤
      (4 * x.left.size + 1) + (4 * x.right.size + 1) := by
  unfold pushedChildren
  rw [List.map_append, List.sum_append]
  have hL : ((if x.left ≠ ITree.nil ∧ low ≤ x.left.maxHigh then
      [(x.left, x.left.maxTs)] else []).map (entryWeight explored)).sum ≤
      4 * x.left.size + 1 := by
    split
    · simpa using entryWeight_le explored (x.left, x.left.maxTs)
    · simp
  have hR : ((if x.right ≠ ITree.nil ∧ low ≤ x.right.maxHigh then
      [(x.right, x.right.maxTs)] else []).map (entryWeight explored)).sum ≤
      4 * x.right.size + 1 := by
    split
    · simpa using entryWeight_le explored (x.right, x.right.maxTs)
    · simp
  exact Nat.add_le_add hL hR

theorem le_maxPrio (st : TopKIterState) (e : ITree × Nat) (he : e ∈ st.nodes) :
    e.2 ≤ maxPrio st :=
  le_foldr_max _ _ (List.mem_map_of_mem (fun e => e.2) he)

theorem maxPrio_le (st : TopKIterState) (b : Nat)
    (h : ∀ e ∈ st.nodes, e.2 ≤ b) : maxPrio st ≤ b := by
  refine foldr_max_le _ _ ?_
  intro a ha
  rcases List.mem_map.mp ha with ⟨e, he, rfl⟩
  exact h e he

theorem id_mem_toList_ids (x : ITree) (hx : x ≠ ITree.nil) :
    x.interval.id ∈ (x.toList.map fun iv => iv.id) := by
  cases x with
  | nil => exact absurd rfl hx
  | node iv c mh mt l r => simp [ITree.toList, ITree.interval]

theorem node_ids_facts (xiv : Interval2DTree) (xc : Bool) (xmh : String)
    (xmt : Nat) (xl xr : ITree)
    (hids : (((ITree.node xiv xc xmh xmt xl xr).toList.map fun iv => iv.id)).Nodup) :
    (xl.toList.map fun iv => iv.id).Nodup ∧
      (xr.toList.map fun iv => iv.id).Nodup ∧
      List.Disjoint (xl.toList.map fun iv => iv.id) (xr.toList.map fun iv => iv.id) ∧
      xiv.id ∉ (xl.toList.map fun iv => iv.id) ∧
      xiv.id ∉ (xr.toList.map fun iv => iv.id) := by
  simp only [ITree.toList, List.map_cons, List.map_append, List.nodup_cons,
    List.nodup_append, List.mem_append] at hids
  exact ⟨hids.2.1, hids.2.2.1, hids.2.2.2,
    fun h => hids.1 (Or.inl h), fun h => hids.1 (Or.inr h)⟩

theorem mem_toList_of_left (xiv : Interval2DTree) (xc : Bool) (xmh : String)
    (xmt : Nat) (xl xr : ITree) (iv : Interval2DTree) (h : iv ∈ xl.toList) :
    iv ∈ (ITree.node xiv xc xmh xmt xl xr).toList := by
  simp [ITree.toList, List.mem_append, h]

theorem mem_toList_of_right (xiv : Interval2DTree) (xc : Bool) (xmh : String)
    (xmt : Nat) (xl xr : ITree) (iv : Interval2DTree) (h : iv ∈ xr.toList) :
    iv ∈ (ITree.node xiv xc xmh xmt xl xr).toList := by
  simp [ITree.toList, List.mem_append, h]

/-- Yield payload of one loop iteration; shared by the step cases that yield. -/
def StepYield (st : TopKIterState) (iv : Interval2DTree) (st' : TopKIterState) : Prop :=
  iterStep st = some (some iv, st') ∧ IterInv st' ∧
    st'.active = st.active ∧ st'.searchLow = st.searchLow ∧
    st'.searchHigh = st.searchHigh ∧
    iv ∈ pendingSet st ∧ pendingSet st' = (pendingSet st).erase iv ∧
    iterMeasure st' < iterMeasure st ∧
    iv.timestamp ≤ maxPrio st ∧ maxPrio st' ≤ iv.timestamp

/-- Silent payload of one loop iteration (no yield). -/
def StepSkip (st : TopKIterState) (st' : TopKIterState) : Prop :=
  iterStep st = some (none, st') ∧ IterInv st' ∧
    st'.active = st.active ∧ st'.searchLow = st.searchLow ∧
    st'.searchHigh = st.searchHigh ∧
    pendingSet st' = pendingSet st ∧ iterMeasure st' < iterMeasure st ∧
    maxPrio st' ≤ maxPrio st

theorem iterStep_explored_case (st : TopKIterState) (hinv : IterInv st)
    (x : ITree) (p : Nat) (rest : List (ITree × Nat))
    (hpop : heapPopMax st.nodes = some ((x, p), rest))
    (hexp : x ∈ st.explored) :
    StepYield st x.interval { st with nodes := rest } := by
  obtain ⟨hperm, hmax⟩ := heapPopMax_spec _ _ _ hpop
  have hxmem : (x, p) ∈ st.nodes := hperm.mem_iff.mpr (List.mem_cons_self _ _)
  have hrest_sub : ∀ e ∈ rest, e ∈ st.nodes := fun e he =>
    hperm.mem_iff.mpr (List.mem_cons_of_mem _ he)
  obtain ⟨hp_ts, hov⟩ := hinv.prio_explored (x, p) hxmem hexp
  have hxnn : x ≠ ITree.nil := hinv.entries_nonnil (x, p) hxmem
  -- decomposition of the pending set, ids and measure along the pop
  have hpend : pendingSet st = pendingOf st.explored (searchOf st) (x, p) ∪
      finsetUnionList (rest.map (pendingOf st.explored (searchOf st))) := by
    unfold pendingSet
    rw [finsetUnionList_perm _ _ (hperm.map _)]
    rfl
  have hidsperm : ((st.nodes.map (idsOfEntry st.explored)).flatten).Perm
      (idsOfEntry st.explored (x, p) ++ (rest.map (idsOfEntry st.explored)).flatten) :=
    (hperm.map (idsOfEntry st.explored)).flatten
  have hidsall : (idsOfEntry st.explored (x, p) ++
      (rest.map (idsOfEntry st.explored)).flatten).Nodup :=
    hidsperm.nodup_iff.mp hinv.all_ids_nodup
  have hidsdec := List.nodup_append.mp hidsall
  have hmeas : iterMeasure st = entryWeight st.explored (x, p) +
      (rest.map (entryWeight st.explored)).sum := by
    unfold iterMeasure
    rw [(hperm.map (entryWeight st.explored)).sum_eq]
    rfl
  -- the computed step
  have hov' : overlapsB x.interval ⟨"", st.searchLow, st.searchHigh, 0⟩ = true := hov
  have hp2 : p = x.interval.timestamp := hp_ts
  have hstep : iterStep st = some (some x.interval, { st with nodes := rest }) := by
    simp only [iterStep, hpop, if_pos hexp, hov', ite_true, hp2, lt_self_iff_false,
      if_false]
  -- the pending interval of the popped entry
  have hpOf : pendingOf st.explored (searchOf st) (x, p) = {x.interval} := by
    unfold pendingOf
    rw [if_pos hexp]
  have hxid : x.interval.id ∈ idsOfEntry st.explored (x, p) := by
    unfold idsOfEntry
    rw [if_pos hexp]
    exact List.mem_singleton.mpr rfl
  have hnotin : x.interval ∉
      finsetUnionList (rest.map (pendingOf st.explored (searchOf st))) := by
    intro hc
    exact hidsdec.2.2 hxid (mem_unionList_id _ _ _ _ hc)
  refine ⟨hstep, ?_, rfl, rfl, rfl, ?_, ?_, ?_, ?_, ?_⟩
  · refine ⟨?_, ?_, ?_, ?_, ?_, ?_, ?_, ?_, ?_⟩
    · exact fun e he => hinv.entries_nonnil e (hrest_sub e he)
    · exact fun e he => hinv.entries_aug e (hrest_sub e he)
    · exact fun e he => hinv.entries_wf e (hrest_sub e he)
    · exact fun e he => hinv.entries_ids e (hrest_sub e he)
    · exact fun e he hf => hinv.prio_fresh e (hrest_sub e he) hf
    · exact fun e he hf => hinv.prio_explored e (hrest_sub e he) hf
    · exact hidsdec.2.1
    · exact fun e he hf => hinv.fresh_explored_disjoint e (hrest_sub e he) hf
    · exact hinv.explored_nonnil
  · rw [hpend, hpOf, ← Finset.insert_eq]
    exact Finset.mem_insert_self _ _
  · show finsetUnionList (rest.map (pendingOf st.explored (searchOf st))) =
      (pendingSet st).erase x.interval
    rw [hpend, hpOf, ← Finset.insert_eq, Finset.erase_insert hnotin]
  · show (rest.map (entryWeight st.explored)).sum < iterMeasure st
    rw [hmeas]
    have hw : entryWeight st.explored (x, p) = 1 := by
      unfold entryWeight
      rw [if_pos hexp]
    omega
  · rw [← hp_ts]
    exact le_maxPrio st (x, p) hxmem
  · refine maxPrio_le _ _ ?_
    intro e he
    rw [← hp_ts]
    exact hmax e (hrest_sub e he)

theorem flatten_map_sublist {α β : Type} (f : α → List β) {l₁ l₂ : List α}
    (h : l₁.Sublist l₂) : ((l₁.map f).flatten).Sublist ((l₂.map f).flatten) := by
  induction h with
  | slnil => simp
  | cons a h ih => exact ih.trans (List.sublist_append_right _ _)
  | cons₂ a h ih => simpa using ih.append_left (f a)

theorem pushedChildren_sublist (x : ITree) (low : String) :
    (pushedChildren x low).Sublist
      [(x.left, x.left.maxTs), (x.right, x.right.maxTs)] := by
  unfold pushedChildren
  split <;> split <;> simp

theorem iterStep_fresh_case (st : TopKIterState) (hinv : IterInv st)
    (x : ITree) (p : Nat) (rest : List (ITree × Nat))
    (hpop : heapPopMax st.nodes = some ((x, p), rest))
    (hexp : x ∉ st.explored) :
    (∃ st', StepSkip st st') ∨ (∃ iv st', StepYield st iv st') := by
  obtain ⟨hperm, hmax⟩ := heapPopMax_spec _ _ _ hpop
  have hxmem : (x, p) ∈ st.nodes := hperm.mem_iff.mpr (List.mem_cons_self _ _)
  have hrest_sub : ∀ e ∈ rest, e ∈ st.nodes := fun e he =>
    hperm.mem_iff.mpr (List.mem_cons_of_mem _ he)
  have hxnn : x ≠ ITree.nil := hinv.entries_nonnil (x, p) hxmem
  have hp : p = x.maxTs := hinv.prio_fresh (x, p) hxmem hexp
  have haug : augOKb x = true := hinv.entries_aug (x, p) hxmem
  have hwf : ∀ iv ∈ x.toList, iv.low ≤ iv.high := hinv.entries_wf (x, p) hxmem
  have hidsx : (x.toList.map fun iv => iv.id).Nodup := hinv.entries_ids (x, p) hxmem
  have hfed : ∀ y ∈ st.explored, y.interval.id ∉ (x.toList.map fun iv => iv.id) :=
    hinv.fresh_explored_disjoint (x, p) hxmem hexp
  have hpend : pendingSet st = pendingOf st.explored (searchOf st) (x, p) ∪
      finsetUnionList (rest.map (pendingOf st.explored (searchOf st))) := by
    unfold pendingSet
    rw [finsetUnionList_perm _ _ (hperm.map _)]
    rfl
  have hidsall : (idsOfEntry st.explored (x, p) ++
      (rest.map (idsOfEntry st.explored)).flatten).Nodup :=
    ((hperm.map (idsOfEntry st.explored)).flatten).nodup_iff.mp hinv.all_ids_nodup
  have hmeas : iterMeasure st = entryWeight st.explored (x, p) +
      (rest.map (entryWeight st.explored)).sum := by
    unfold iterMeasure
    rw [(hperm.map (entryWeight st.explored)).sum_eq]
    rfl
  have hidsofx : idsOfEntry st.explored (x, p) = x.toList.map fun iv => iv.id := by
    unfold idsOfEntry
    rw [if_neg hexp]
  rw [hidsofx] at hidsall
  have hidsdec := List.nodup_append.mp hidsall
  have hwx : entryWeight st.explored (x, p) = 4 * x.size + 1 := by
    unfold entryWeight
    rw [if_neg hexp]
  rw [hwx] at hmeas
  cases x with
  | nil => exact absurd rfl hxnn
  | node xiv xc xmh xmt xl xr =>
  obtain ⟨hmh, hmt, haugl, haugr⟩ := (augOKb_node xiv xc xmh xmt xl xr).mp haug
  have hwfl : ∀ iv ∈ xl.toList, iv.low ≤ iv.high := fun iv h =>
    hwf iv (mem_toList_of_left xiv xc xmh xmt xl xr iv h)
  have hwfr : ∀ iv ∈ xr.toList, iv.low ≤ iv.high := fun iv h =>
    hwf iv (mem_toList_of_right xiv xc xmh xmt xl xr iv h)
  obtain ⟨hidl, hidr, hdislr, hxidl, hxidr⟩ := node_ids_facts xiv xc xmh xmt xl xr hidsx
  have hXids : ((ITree.node xiv xc xmh xmt xl xr).toList.map fun iv => iv.id) =
      xiv.id :: ((xl.toList.map fun iv => iv.id) ++ (xr.toList.map fun iv => iv.id)) := by
    simp [ITree.toList]
  have hsubl : ∀ a, a ∈ (xl.toList.map fun iv => iv.id) →
      a ∈ ((ITree.node xiv xc xmh xmt xl xr).toList.map fun iv => iv.id) := by
    intro a ha
    rw [hXids]
    exact List.mem_cons_of_mem _ (List.mem_append.mpr (Or.inl ha))
  have hsubr : ∀ a, a ∈ (xr.toList.map fun iv => iv.id) →
      a ∈ ((ITree.node xiv xc xmh xmt xl xr).toList.map fun iv => iv.id) := by
    intro a ha
    rw [hXids]
    exact List.mem_cons_of_mem _ (List.mem_append.mpr (Or.inr ha))
  have hxivmem : xiv.id ∈ ((ITree.node xiv xc xmh xmt xl xr).toList.map fun iv => iv.id) := by
    rw [hXids]
    exact List.mem_cons_self _ _
  have hlex : xl ∉ st.explored := by
    intro hc
    have hnn := hinv.explored_nonnil xl hc
    rcases List.mem_map.mp (id_mem_toList_ids xl hnn) with ⟨iv, hiv, hide⟩
    exact hfed xl hc (hsubl _ (List.mem_map.mpr ⟨iv, hiv, hide⟩))
  have hrex : xr ∉ st.explored := by
    intro hc
    have hnn := hinv.explored_nonnil xr hc
    rcases List.mem_map.mp (id_mem_toList_ids xr hnn) with ⟨iv, hiv, hide⟩
    exact hfed xr hc (hsubr _ (List.mem_map.mpr ⟨iv, hiv, hide⟩))
  have hlxne : xl ≠ ITree.node xiv xc xmh xmt xl xr := by
    intro h
    have := congrArg ITree.size h
    simp only [ITree.size] at this
    omega
  have hrxne : xr ≠ ITree.node xiv xc xmh xmt xl xr := by
    intro h
    have := congrArg ITree.size h
    simp only [ITree.size] at this
    omega
  have hrestne : ∀ e ∈ rest, e.1 ≠ ITree.node xiv xc xmh xmt xl xr := by
    intro e he hc
    by_cases hf : e.1 ∈ st.explored
    · exact hexp (hc ▸ hf)
    · have h1 : xiv.id ∈ idsOfEntry st.explored e := by
        unfold idsOfEntry
        rw [if_neg hf, hc]
        exact hxivmem
      have h2 : xiv.id ∈ (rest.map (idsOfEntry st.explored)).flatten :=
        List.mem_flatten.mpr ⟨idsOfEntry st.explored e, List.mem_map_of_mem _ he, h1⟩
      exact hidsdec.2.2 hxivmem h2
  -- facts about the pushed children
  have hCmem := pushedChildren_mem (ITree.node xiv xc xmh xmt xl xr) st.searchLow
  have hCsub := pushedChildren_sublist (ITree.node xiv xc xmh xmt xl xr) st.searchLow
  have hCprio : ∀ e ∈ pushedChildren (ITree.node xiv xc xmh xmt xl xr) st.searchLow,
      e.2 ≤ p := by
    intro e he
    rcases hCmem e he with ⟨rfl, _⟩ | ⟨rfl, _⟩
    · show xl.maxTs ≤ p
      rw [hp]
      exact hmt ▸ setMaxFields_ts_left xiv xl xr
    · show xr.maxTs ≤ p
      rw [hp]
      exact hmt ▸ setMaxFields_ts_right xiv xl xr
  have hXLRnodup : ((xl.toList.map fun iv => iv.id) ++
      (xr.toList.map fun iv => iv.id)).Nodup :=
    List.nodup_append.mpr ⟨hidl, hidr, hdislr⟩
  have hCHsub : ∀ explored2 : List ITree, xl ∉ explored2 → xr ∉ explored2 →
      (((pushedChildren (ITree.node xiv xc xmh xmt xl xr) st.searchLow).map
        (idsOfEntry explored2)).flatten).Sublist
        ((xl.toList.map fun iv => iv.id) ++ (xr.toList.map fun iv => iv.id)) := by
    intro explored2 hl2 hr2
    have h1 := flatten_map_sublist (idsOfEntry explored2) hCsub
    have h2 : (([(ITree.left (ITree.node xiv xc xmh xmt xl xr),
        (ITree.left (ITree.node xiv xc xmh xmt xl xr)).maxTs),
        (ITree.right (ITree.node xiv xc xmh xmt xl xr),
        (ITree.right (ITree.node xiv xc xmh xmt xl xr)).maxTs)].map
          (idsOfEntry explored2)).flatten) =
        ((xl.toList.map fun iv => iv.id) ++ (xr.toList.map fun iv => iv.id)) := by
      show (idsOfEntry explored2 (xl, xl.maxTs) ++
        (idsOfEntry explored2 (xr, xr.maxTs) ++ [])) = _
      unfold idsOfEntry
      rw [if_neg hl2, if_neg hr2, List.append_nil]
    rw [h2] at h1
    exact h1
  -- shared facts for the two step outcomes that do not re-enqueue:
  -- the successor state { st with nodes := rest ++ pushedChildren x low }
  have hinvAC : IterInv { st with
      nodes := rest ++ pushedChildren (ITree.node xiv xc xmh xmt xl xr) st.searchLow } := by
    refine ⟨?_, ?_, ?_, ?_, ?_, ?_, ?_, ?_, ?_⟩
    · intro e he
      rcases List.mem_append.mp he with h | h
      · exact hinv.entries_nonnil e (hrest_sub e h)
      · rcases hCmem e h with ⟨rfl, hnn⟩ | ⟨rfl, hnn⟩ <;> exact hnn
    · intro e he
      rcases List.mem_append.mp he with h | h
      · exact hinv.entries_aug e (hrest_sub e h)
      · rcases hCmem e h with ⟨rfl, _⟩ | ⟨rfl, _⟩
        · exact haugl
        · exact haugr
    · intro e he
      rcases List.mem_append.mp he with h | h
      · exact hinv.entries_wf e (hrest_sub e h)
      · rcases hCmem e h with ⟨rfl, _⟩ | ⟨rfl, _⟩
        · exact hwfl
        · exact hwfr
    · intro e he
      rcases List.mem_append.mp he with h | h
      · exact hinv.entries_ids e (hrest_sub e h)
      · rcases hCmem e h with ⟨rfl, _⟩ | ⟨rfl, _⟩
        · exact hidl
        · exact hidr
    · intro e he hf
      rcases List.mem_append.mp he with h | h
      · exact hinv.prio_fresh e (hrest_sub e h) hf
      · rcases hCmem e h with ⟨rfl, _⟩ | ⟨rfl, _⟩ <;> rfl
    · intro e he hf
      rcases List.mem_append.mp he with h | h
      · exact hinv.prio_explored e (hrest_sub e h) hf
      · rcases hCmem e h with ⟨rfl, _⟩ | ⟨rfl, _⟩
        · exact absurd hf hlex
        · exact absurd hf hrex
    · show (((rest ++ pushedChildren (ITree.node xiv xc xmh xmt xl xr)
        st.searchLow).map (idsOfEntry st.explored)).flatten).Nodup
      rw [List.map_append, List.flatten_append]
      refine List.nodup_append.mpr ⟨hidsdec.2.1, ?_, ?_⟩
      · exact hXLRnodup.sublist (hCHsub st.explored hlex hrex)
      · intro a haR haC
        have haX : a ∈ ((ITree.node xiv xc xmh xmt xl xr).toList.map
            fun iv => iv.id) := by
          rcases List.mem_append.mp ((hCHsub st.explored hlex hrex).subset haC) with
            h | h
          · exact hsubl a h
          · exact hsubr a h
        exact hidsdec.2.2 haX haR
    · intro e he hf y hy
      rcases List.mem_append.mp he with h | h
      · exact hinv.fresh_explored_disjoint e (hrest_sub e h) hf y hy
      · rcases hCmem e h with ⟨rfl, _⟩ | ⟨rfl, _⟩
        · exact fun hc => hfed y hy (hsubl _ hc)
        · exact fun hc => hfed y hy (hsubr _ hc)
    · exact hinv.explored_nonnil
  have hpendC : finsetUnionList
      ((pushedChildren (ITree.node xiv xc xmh xmt xl xr) st.searchLow).map
        (pendingOf st.explored (searchOf st))) =
      (xl.toList.filter fun iv => overlapsB iv (searchOf st)).toFinset ∪
        (xr.toList.filter fun iv => overlapsB iv (searchOf st)).toFinset :=
    pushedChildren_pending xiv xc xmh xmt xl xr (searchOf st) st.explored
      haugl haugr hwfl hwfr hlex hrex
  have hpendAC : pendingSet { st with
      nodes := rest ++ pushedChildren (ITree.node xiv xc xmh xmt xl xr) st.searchLow } =
      finsetUnionList (rest.map (pendingOf st.explored (searchOf st))) ∪
        ((xl.toList.filter fun iv => overlapsB iv (searchOf st)).toFinset ∪
          (xr.toList.filter fun iv => overlapsB iv (searchOf st)).toFinset) := by
    show finsetUnionList
      (((rest ++ pushedChildren (ITree.node xiv xc xmh xmt xl xr) st.searchLow).map
        (pendingOf st.explored (searchOf st)))) = _
    rw [List.map_append, finsetUnionList_append, hpendC]
  have hsz : (ITree.node xiv xc xmh xmt xl xr).size = 1 + xl.size + xr.size := rfl
  have hWC : ((pushedChildren (ITree.node xiv xc xmh xmt xl xr) st.searchLow).map
      (entryWeight st.explored)).sum ≤ (4 * xl.size + 1) + (4 * xr.size + 1) :=
    pushedChildren_weight (ITree.node xiv xc xmh xmt xl xr) st.searchLow st.explored
  have hmAC : iterMeasure { st with
      nodes := rest ++ pushedChildren (ITree.node xiv xc xmh xmt xl xr) st.searchLow } =
      (rest.map (entryWeight st.explored)).sum +
        ((pushedChildren (ITree.node xiv xc xmh xmt xl xr) st.searchLow).map
          (entryWeight st.explored)).sum := by
    show (((rest ++ pushedChildren (ITree.node xiv xc xmh xmt xl xr) st.searchLow).map
      (entryWeight st.explored)).sum) = _
    rw [List.map_append, List.sum_append]
  have hmeasAC : iterMeasure { st with
      nodes := rest ++ pushedChildren (ITree.node xiv xc xmh xmt xl xr) st.searchLow } <
      iterMeasure st := by
    rw [hmAC, hmeas]
    omega
  have hprioAC : maxPrio { st with
      nodes := rest ++ pushedChildren (ITree.node xiv xc xmh xmt xl xr) st.searchLow } ≤
      p := by
    refine maxPrio_le _ _ ?_
    intro e he
    rcases List.mem_append.mp he with h | h
    · exact hmax e (hrest_sub e h)
    · exact hCprio e h
  by_cases hov : overlapsB xiv (searchOf st) = true
  · -- the popped node's own interval intersects the query
    have hov' : overlapsB (ITree.node xiv xc xmh xmt xl xr).interval
        ⟨"", st.searchLow, st.searchHigh, 0⟩ = true := hov
    have hpOfC : pendingOf st.explored (searchOf st)
        (ITree.node xiv xc xmh xmt xl xr, p) =
        {xiv} ∪ ((xl.toList.filter fun iv => overlapsB iv (searchOf st)).toFinset ∪
          (xr.toList.filter fun iv => overlapsB iv (searchOf st)).toFinset) := by
      unfold pendingOf
      rw [if_neg hexp, toFinset_filter_node, if_pos hov]
    have hle : xiv.timestamp ≤ p := by
      rw [hp]
      exact le_of_le_of_eq (setMaxFields_ts_self xiv xl xr) hmt.symm
    by_cases hlt : xiv.timestamp < p
    · -- timestamp below priority: mark explored and re-enqueue at own timestamp
      left
      have hXmem' : ITree.node xiv xc xmh xmt xl xr ∈
          ITree.node xiv xc xmh xmt xl xr :: st.explored := List.mem_cons_self _ _
      have hXnn : ITree.node xiv xc xmh xmt xl xr ≠ ITree.nil := fun h =>
        ITree.noConfusion h
      have hlex' : xl ∉ ITree.node xiv xc xmh xmt xl xr :: st.explored := fun h =>
        (List.mem_cons.mp h).elim hlxne hlex
      have hrex' : xr ∉ ITree.node xiv xc xmh xmt xl xr :: st.explored := fun h =>
        (List.mem_cons.mp h).elim hrxne hrex
      have hrestmem : ∀ e ∈ rest,
          (e.1 ∈ ITree.node xiv xc xmh xmt xl xr :: st.explored ↔
            e.1 ∈ st.explored) := fun e he =>
        ⟨fun h => (List.mem_cons.mp h).resolve_left (hrestne e he),
          fun h => List.mem_cons_of_mem _ h⟩
      have hrest_fresh : ∀ e ∈ rest, e.1 ∉ st.explored →
          xiv.id ∉ (e.1.toList.map fun iv => iv.id) := by
        intro e he hf hc
        have h1 : xiv.id ∈ idsOfEntry st.explored e := by
          unfold idsOfEntry
          rw [if_neg hf]
          exact hc
        exact hidsdec.2.2 hxivmem
          (List.mem_flatten.mpr ⟨_, List.mem_map_of_mem _ he, h1⟩)
      have hmapR_ids : rest.map
          (idsOfEntry (ITree.node xiv xc xmh xmt xl xr :: st.explored)) =
          rest.map (idsOfEntry st.explored) :=
        List.map_congr_left fun e he =>
          idsOfEntry_congr st.explored _ e (hrestmem e he)
      have hmapR_pend : rest.map
          (pendingOf (ITree.node xiv xc xmh xmt xl xr :: st.explored) (searchOf st)) =
          rest.map (pendingOf st.explored (searchOf st)) :=
        List.map_congr_left fun e he =>
          pendingOf_congr st.explored _ (searchOf st) e (hrestmem e he)
      have hCH' := hCHsub (ITree.node xiv xc xmh xmt xl xr :: st.explored) hlex' hrex'
      have hidX' : idsOfEntry (ITree.node xiv xc xmh xmt xl xr :: st.explored)
          (ITree.node xiv xc xmh xmt xl xr, xiv.timestamp) = [xiv.id] := by
        unfold idsOfEntry
        rw [if_pos hXmem']
        rfl
      refine ⟨{ st with
        nodes := (rest ++ pushedChildren (ITree.node xiv xc xmh xmt xl xr)
          st.searchLow) ++ [(ITree.node xiv xc xmh xmt xl xr, xiv.timestamp)],
        explored := ITree.node xiv xc xmh xmt xl xr :: st.explored },
        ?_, ?_, rfl, rfl, rfl, ?_, ?_, ?_⟩
      · have hov2 : overlapsB xiv ⟨"", st.searchLow, st.searchHigh, 0⟩ = true := hov
        simp only [iterStep, hpop, if_neg hexp, ITree.interval, hov2, ite_true,
          if_pos hlt]
      · refine ⟨?_, ?_, ?_, ?_, ?_, ?_, ?_, ?_, ?_⟩
        · intro e he
          rcases List.mem_append.mp he with h | h
          · rcases List.mem_append.mp h with h' | h'
            · exact hinv.entries_nonnil e (hrest_sub e h')
            · rcases hCmem e h' with ⟨rfl, hnn⟩ | ⟨rfl, hnn⟩ <;> exact hnn
          · rcases List.mem_singleton.mp h with rfl
            exact hXnn
        · intro e he
          rcases List.mem_append.mp he with h | h
          · rcases List.mem_append.mp h with h' | h'
            · exact hinv.entries_aug e (hrest_sub e h')
            · rcases hCmem e h' with ⟨rfl, _⟩ | ⟨rfl, _⟩
              · exact haugl
              · exact haugr
          · rcases List.mem_singleton.mp h with rfl
            exact haug
        · intro e he
          rcases List.mem_append.mp he with h | h
          · rcases List.mem_append.mp h with h' | h'
            · exact hinv.entries_wf e (hrest_sub e h')
            · rcases hCmem e h' with ⟨rfl, _⟩ | ⟨rfl, _⟩
              · exact hwfl
              · exact hwfr
          · rcases List.mem_singleton.mp h with rfl
            exact hwf
        · intro e he
          rcases List.mem_append.mp he with h | h
          · rcases List.mem_append.mp h with h' | h'
            · exact hinv.entries_ids e (hrest_sub e h')
            · rcases hCmem e h' with ⟨rfl, _⟩ | ⟨rfl, _⟩
              · exact hidl
              · exact hidr
          · rcases List.mem_singleton.mp h with rfl
            exact hidsx
        · intro e he hf
          rcases List.mem_append.mp he with h | h
          · rcases List.mem_append.mp h with h' | h'
            · exact hinv.prio_fresh e (hrest_sub e h')
                (fun hm => hf (List.mem_cons_of_mem _ hm))
            · rcases hCmem e h' with ⟨rfl, _⟩ | ⟨rfl, _⟩ <;> rfl
          · rcases List.mem_singleton.mp h with rfl
            exact absurd hXmem' hf
        · intro e he hf
          rcases List.mem_append.mp he with h | h
          · rcases List.mem_append.mp h with h' | h'
            · exact hinv.prio_explored e (hrest_sub e h') ((hrestmem e h').mp hf)
            · rcases hCmem e h' with ⟨rfl, _⟩ | ⟨rfl, _⟩
              · exact absurd hf hlex'
              · exact absurd hf hrex'
          · rcases List.mem_singleton.mp h with rfl
            exact ⟨rfl, hov⟩
        · show ((((rest ++ pushedChildren (ITree.node xiv xc xmh xmt xl xr)
            st.searchLow) ++ [(ITree.node xiv xc xmh xmt xl xr,
            xiv.timestamp)]).map (idsOfEntry
            (ITree.node xiv xc xmh xmt xl xr :: st.explored))).flatten).Nodup
          rw [List.map_append, List.map_append, List.flatten_append,
            List.flatten_append, hmapR_ids]
          simp only [List.map_cons, List.map_nil, List.flatten_cons,
            List.flatten_nil, List.append_nil]
          rw [hidX']
          refine List.nodup_append.mpr ⟨List.nodup_append.mpr
            ⟨hidsdec.2.1, hXLRnodup.sublist hCH', ?_⟩, List.nodup_singleton _, ?_⟩
          · intro a haR haC
            have haX : a ∈ ((ITree.node xiv xc xmh xmt xl xr).toList.map
                fun iv => iv.id) := by
              rcases List.mem_append.mp (hCH'.subset haC) with h | h
              · exact hsubl a h
              · exact hsubr a h
            exact hidsdec.2.2 haX haR
          · intro a ha hb
            rcases List.mem_singleton.mp hb with rfl
            rcases List.mem_append.mp ha with h | h
            · exact hidsdec.2.2 hxivmem h
            · rcases List.mem_append.mp (hCH'.subset h) with h' | h'
              · exact hxidl h'
              · exact hxidr h'
        · intro e he hf y hy
          rcases List.mem_append.mp he with h | h
          · rcases List.mem_append.mp h with h' | h'
            · have hf' : e.1 ∉ st.explored := fun hm =>
                hf (List.mem_cons_of_mem _ hm)
              rcases List.mem_cons.mp hy with rfl | hy'
              · exact hrest_fresh e h' hf'
              · exact hinv.fresh_explored_disjoint e (hrest_sub e h') hf' y hy'
            · rcases hCmem e h' with ⟨rfl, _⟩ | ⟨rfl, _⟩
              · rcases List.mem_cons.mp hy with rfl | hy'
                · exact hxidl
                · exact fun hc => hfed y hy' (hsubl _ hc)
              · rcases List.mem_cons.mp hy with rfl | hy'
                · exact hxidr
                · exact fun hc => hfed y hy' (hsubr _ hc)
          · rcases List.mem_singleton.mp h with rfl
            exact absurd hXmem' hf
        · intro y hy
          rcases List.mem_cons.mp hy with rfl | h
          · exact hXnn
          · exact hinv.explored_nonnil y h
      · -- pending set unchanged: the node now stands for exactly its own interval
        have hpendC' : finsetUnionList
            ((pushedChildren (ITree.node xiv xc xmh xmt xl xr) st.searchLow).map
              (pendingOf (ITree.node xiv xc xmh xmt xl xr :: st.explored)
                (searchOf st))) =
            (xl.toList.filter fun iv => overlapsB iv (searchOf st)).toFinset ∪
              (xr.toList.filter fun iv => overlapsB iv (searchOf st)).toFinset :=
          pushedChildren_pending xiv xc xmh xmt xl xr (searchOf st)
            (ITree.node xiv xc xmh xmt xl xr :: st.explored)
            haugl haugr hwfl hwfr hlex' hrex'
        have hpOfX' : pendingOf (ITree.node xiv xc xmh xmt xl xr :: st.explored)
            (searchOf st) (ITree.node xiv xc xmh xmt xl xr, xiv.timestamp) =
            {xiv} := by
          unfold pendingOf
          rw [if_pos hXmem']
          rfl
        have hlast : finsetUnionList
            ([(ITree.node xiv xc xmh xmt xl xr, xiv.timestamp)].map
              (pendingOf (ITree.node xiv xc xmh xmt xl xr :: st.explored)
                (searchOf st))) = {xiv} := by
          show pendingOf (ITree.node xiv xc xmh xmt xl xr :: st.explored)
            (searchOf st) (ITree.node xiv xc xmh xmt xl xr, xiv.timestamp) ∪ ∅ = _
          rw [Finset.union_empty, hpOfX']
        show finsetUnionList ((((rest ++ pushedChildren
          (ITree.node xiv xc xmh xmt xl xr) st.searchLow) ++
          [(ITree.node xiv xc xmh xmt xl xr, xiv.timestamp)]).map
            (pendingOf (ITree.node xiv xc xmh xmt xl xr :: st.explored)
              (searchOf st)))) = pendingSet st
        rw [List.map_append, List.map_append, finsetUnionList_append,
          finsetUnionList_append, hmapR_pend, hpendC', hlast, hpend, hpOfC]
        ext a
        simp only [Finset.mem_union, Finset.mem_singleton]
        tauto
      · -- measure strictly decreases: 3 under the popped node's weight budget
        have hw1 : entryWeight (ITree.node xiv xc xmh xmt xl xr :: st.explored)
            (ITree.node xiv xc xmh xmt xl xr, xiv.timestamp) = 1 := by
          unfold entryWeight
          rw [if_pos hXmem']
        have hWR' : (rest.map (entryWeight
            (ITree.node xiv xc xmh xmt xl xr :: st.explored))).sum ≤
            (rest.map (entryWeight st.explored)).sum :=
          List.sum_le_sum fun e _ => entryWeight_mono _ _ e
        have hWC' : ((pushedChildren (ITree.node xiv xc xmh xmt xl xr)
            st.searchLow).map (entryWeight
              (ITree.node xiv xc xmh xmt xl xr :: st.explored))).sum ≤
            (4 * xl.size + 1) + (4 * xr.size + 1) :=
          pushedChildren_weight (ITree.node xiv xc xmh xmt xl xr) st.searchLow _
        have hm' : iterMeasure { st with
            nodes := (rest ++ pushedChildren (ITree.node xiv xc xmh xmt xl xr)
              st.searchLow) ++ [(ITree.node xiv xc xmh xmt xl xr,
              xiv.timestamp)],
            explored := ITree.node xiv xc xmh xmt xl xr :: st.explored } =
            ((rest.map (entryWeight
              (ITree.node xiv xc xmh xmt xl xr :: st.explored))).sum +
              ((pushedChildren (ITree.node xiv xc xmh xmt xl xr)
                st.searchLow).map (entryWeight
                  (ITree.node xiv xc xmh xmt xl xr :: st.explored))).sum) +
              entryWeight (ITree.node xiv xc xmh xmt xl xr :: st.explored)
                (ITree.node xiv xc xmh xmt xl xr, xiv.timestamp) := by
          show (((rest ++ pushedChildren (ITree.node xiv xc xmh xmt xl xr)
            st.searchLow) ++ [(ITree.node xiv xc xmh xmt xl xr,
            xiv.timestamp)]).map (entryWeight
              (ITree.node xiv xc xmh xmt xl xr :: st.explored))).sum = _
          rw [List.map_append, List.map_append, List.sum_append, List.sum_append]
          simp
        rw [hm', hw1, hmeas]
        omega
      · -- heap priorities stay bounded by the popped priority
        refine le_trans (maxPrio_le _ p ?_)
          (le_maxPrio st (ITree.node xiv xc xmh xmt xl xr, p) hxmem)
        intro e he
        rcases List.mem_append.mp he with h | h
        · rcases List.mem_append.mp h with h' | h'
          · exact hmax e (hrest_sub e h')
          · exact hCprio e h'
        · rcases List.mem_singleton.mp h with rfl
          exact le_of_lt hlt
    · -- timestamp equals priority: yield the interval
      right
      have ht : xiv.timestamp = p := le_antisymm hle (not_lt.mp hlt)
      have hp2 : p = xiv.timestamp := ht.symm
      have hnotinC : xiv ∉
          (((xl.toList.filter fun iv => overlapsB iv (searchOf st)).toFinset ∪
            (xr.toList.filter fun iv => overlapsB iv (searchOf st)).toFinset) ∪
            finsetUnionList (rest.map (pendingOf st.explored (searchOf st)))) := by
        intro hc
        rcases Finset.mem_union.mp hc with hc1 | hc2
        · rcases Finset.mem_union.mp hc1 with h | h
          · exact hxidl (List.mem_map_of_mem _
              (List.mem_filter.mp (List.mem_toFinset.mp h)).1)
          · exact hxidr (List.mem_map_of_mem _
              (List.mem_filter.mp (List.mem_toFinset.mp h)).1)
        · exact hidsdec.2.2 hxivmem (mem_unionList_id _ _ _ _ hc2)
      refine ⟨xiv, { st with
        nodes := rest ++ pushedChildren (ITree.node xiv xc xmh xmt xl xr)
          st.searchLow },
        ?_, hinvAC, rfl, rfl, rfl, ?_, ?_, hmeasAC, ?_, ?_⟩
      · have hov2 : overlapsB xiv ⟨"", st.searchLow, st.searchHigh, 0⟩ = true := hov
        simp only [iterStep, hpop, if_neg hexp, ITree.interval, hov2, ite_true,
          hp2, lt_self_iff_false, if_false]
      · rw [hpend, hpOfC]
        exact Finset.mem_union.mpr (Or.inl (Finset.mem_union.mpr
          (Or.inl (Finset.mem_singleton_self xiv))))
      · show pendingSet { st with
          nodes := rest ++ pushedChildren (ITree.node xiv xc xmh xmt xl xr)
            st.searchLow } = (pendingSet st).erase xiv
        rw [hpend, hpOfC, Finset.union_assoc, ← Finset.insert_eq,
          Finset.erase_insert hnotinC, hpendAC, Finset.union_comm]
      · have h1 := le_maxPrio st (ITree.node xiv xc xmh xmt xl xr, p) hxmem
        omega
      · omega
  · -- no overlap: silent skip, children pushed
    left
    refine ⟨{ st with
      nodes := rest ++ pushedChildren (ITree.node xiv xc xmh xmt xl xr) st.searchLow },
      ?_, hinvAC, rfl, rfl, rfl, ?_, hmeasAC, le_trans hprioAC
        (le_maxPrio st (ITree.node xiv xc xmh xmt xl xr, p) hxmem)⟩
    · have hov' : overlapsB (ITree.node xiv xc xmh xmt xl xr).interval
          ⟨"", st.searchLow, st.searchHigh, 0⟩ = false :=
        Bool.not_eq_true _ ▸ hov
      simp only [iterStep, hpop, if_neg hexp, hov', Bool.false_eq_true, if_false]
    · have hpOf : pendingOf st.explored (searchOf st)
          (ITree.node xiv xc xmh xmt xl xr, p) =
          (xl.toList.filter fun iv => overlapsB iv (searchOf st)).toFinset ∪
            (xr.toList.filter fun iv => overlapsB iv (searchOf st)).toFinset := by
        unfold pendingOf
        rw [if_neg hexp, toFinset_filter_node, if_neg hov, Finset.empty_union]
      rw [hpendAC, hpend, hpOf, Finset.union_comm]

theorem iterStep_spec (st : TopKIterState) (hinv : IterInv st) :
    (iterStep st = none ∧ st.nodes = []) ∨
    (∃ st', StepSkip st st') ∨ (∃ iv st', StepYield st iv st') := by
  cases hpop : heapPopMax st.nodes with
  | none =>
    left
    exact ⟨by simp [iterStep, hpop], (heapPopMax_eq_none _).mp hpop⟩
  | some pr =>
    obtain ⟨⟨x, p⟩, rest⟩ := pr
    by_cases hexp : x ∈ st.explored
    · right; right
      exact ⟨x.interval, _, iterStep_explored_case st hinv x p rest hpop hexp⟩
    · right
      exact iterStep_fresh_case st hinv x p rest hpop hexp

theorem nextAuxSpec : ∀ (n : Nat) (st : TopKIterState), IterInv st →
    iterMeasure st ≤ n → ∀ fuel, iterMeasure st < fuel →
    (iterNextAux fuel st = none ∧ pendingSet st = ∅) ∨
    (∃ iv st', iterNextAux fuel st = some (iv, st') ∧ IterInv st' ∧
      st'.active = st.active ∧ st'.searchLow = st.searchLow ∧
      st'.searchHigh = st.searchHigh ∧
      iv ∈ pendingSet st ∧ pendingSet st' = (pendingSet st).erase iv ∧
      iterMeasure st' < iterMeasure st ∧
      iv.timestamp ≤ maxPrio st ∧ maxPrio st' ≤ iv.timestamp) := by
  intro n
  induction n with
  | zero =>
    intro st hinv hle fuel hfuel
    cases fuel with
    | zero => exact absurd hfuel (by omega)
    | succ f =>
      rcases iterStep_spec st hinv with ⟨hnone, hnil⟩ | ⟨st', hskip⟩ | ⟨iv, st', hyld⟩
      · left
        refine ⟨by simp [iterNextAux, hnone], ?_⟩
        show finsetUnionList (st.nodes.map (pendingOf st.explored (searchOf st))) = ∅
        rw [hnil]
        rfl
      · obtain ⟨_, _, _, _, _, _, hmeasLt, _⟩ := hskip
        exact absurd hmeasLt (by omega)
      · right
        obtain ⟨hstep, hinv', hact, hlow, hhigh, hmem, hpe, hml, hub, hlb⟩ := hyld
        exact ⟨iv, st', by simp [iterNextAux, hstep], hinv', hact, hlow, hhigh,
          hmem, hpe, hml, hub, hlb⟩
  | succ m ih =>
    intro st hinv hle fuel hfuel
    cases fuel with
    | zero => exact absurd hfuel (by omega)
    | succ f =>
      rcases iterStep_spec st hinv with ⟨hnone, hnil⟩ | ⟨st', hskip⟩ | ⟨iv, st', hyld⟩
      · left
        refine ⟨by simp [iterNextAux, hnone], ?_⟩
        show finsetUnionList (st.nodes.map (pendingOf st.explored (searchOf st))) = ∅
        rw [hnil]
        rfl
      · obtain ⟨hstep, hinv', hact, hlow, hhigh, hpendEq, hmeasLt, hprioLe⟩ := hskip
        have hle' : iterMeasure st' ≤ m := by omega
        have hf' : iterMeasure st' < f := by omega
        rcases ih st' hinv' hle' f hf' with ⟨hnone2, hpend2⟩ |
          ⟨iv, st'', h1, h2, h3, h4, h5, h6, h7, h8, h9, h10⟩
        · left
          refine ⟨by simp [iterNextAux, hstep, hnone2], ?_⟩
          rw [← hpendEq]
          exact hpend2
        · right
          refine ⟨iv, st'', by simp [iterNextAux, hstep, h1], h2, h3.trans hact,
            h4.trans hlow, h5.trans hhigh, ?_, ?_, ?_, ?_, h10⟩
          · rw [← hpendEq]
            exact h6
          · rw [← hpendEq]
            exact h7
          · exact lt_trans h8 hmeasLt
          · exact le_trans h9 hprioLe
      · right
        obtain ⟨hstep, hinv', hact, hlow, hhigh, hmem, hpe, hml, hub, hlb⟩ := hyld
        exact ⟨iv, st', by simp [iterNextAux, hstep], hinv', hact, hlow, hhigh,
          hmem, hpe, hml, hub, hlb⟩

theorem runSpec : ∀ (k : Nat) (st : TopKIterState), IterInv st →
    st.active = true → (pendingSet st).card ≤ k →
    (topkRun k st).1.toFinset = pendingSet st ∧
    (topkRun k st).1.Nodup ∧
    (topkRun k st).1.Pairwise (fun a b => b.timestamp ≤ a.timestamp) ∧
    (∀ iv ∈ (topkRun k st).1, iv.timestamp ≤ maxPrio st) ∧
    topkNext (topkRun k st).2 = none := by
  intro k
  induction k with
  | zero =>
    intro st hinv hact hcard
    have hpe : pendingSet st = ∅ := Finset.card_eq_zero.mp (Nat.le_zero.mp hcard)
    rcases nextAuxSpec (iterMeasure st) st hinv (le_refl _) (iterMeasure st + 1)
        (Nat.lt_succ_self _) with ⟨hnone, _⟩ |
      ⟨iv, st', _, _, _, _, _, hmem, _, _, _, _⟩
    · have hnext : topkNext st = none := by
        rw [topkNext, if_pos hact]
        exact hnone
      exact ⟨by simp [topkRun, hpe], by simp [topkRun], by simp [topkRun],
        by simp [topkRun], by simpa [topkRun] using hnext⟩
    · rw [hpe] at hmem
      exact absurd hmem (Finset.not_mem_empty iv)
  | succ m ih =>
    intro st hinv hact hcard
    rcases nextAuxSpec (iterMeasure st) st hinv (le_refl _) (iterMeasure st + 1)
        (Nat.lt_succ_self _) with ⟨hnone, hpe⟩ |
      ⟨iv, st', h1, h2, h3, h4, h5, h6, h7, h8, h9, h10⟩
    · have hnext : topkNext st = none := by
        rw [topkNext, if_pos hact]
        exact hnone
      refine ⟨?_, ?_, ?_, ?_, ?_⟩ <;> simp [topkRun, hnext, hpe]
    · have hnext : topkNext st = some (iv, st') := by
        rw [topkNext, if_pos hact]
        exact h1
      have hact' : st'.active = true := h3.trans hact
      have hcard' : (pendingSet st').card ≤ m := by
        rw [h7, Finset.card_erase_of_mem h6]
        omega
      obtain ⟨ih1, ih2, ih3, ih4, ih5⟩ := ih st' h2 hact' hcard'
      have hrun : topkRun (m + 1) st =
          (iv :: (topkRun m st').1, (topkRun m st').2) := by
        simp [topkRun, hnext]
      rw [hrun]
      refine ⟨?_, ?_, ?_, ?_, ih5⟩
      · show (iv :: (topkRun m st').1).toFinset = pendingSet st
        rw [List.toFinset_cons, ih1, h7, Finset.insert_erase h6]
      · refine List.nodup_cons.mpr ⟨?_, ih2⟩
        intro hc
        have hm2 : iv ∈ pendingSet st' := ih1 ▸ List.mem_toFinset.mpr hc
        rw [h7] at hm2
        exact Finset.not_mem_erase iv _ hm2
      · refine List.pairwise_cons.mpr ⟨?_, ih3⟩
        intro b hb
        exact le_trans (ih4 b hb) h10
      · intro b hb
        rcases List.mem_cons.mp hb with rfl | hb'
        · exact h9
        · exact le_trans (le_trans (ih4 b hb') h10) h9

theorem initIterInv (t : ITree) (lo hi : String) (hnil : t ≠ ITree.nil)
    (haug : augOKb t = true) (hwf : ∀ iv ∈ t.toList, iv.low ≤ iv.high)
    (hids : (t.toList.map fun iv => iv.id).Nodup) :
    IterInv ⟨true, lo, hi, [(t, t.maxTs)], []⟩ := by
  refine ⟨?_, ?_, ?_, ?_, ?_, ?_, ?_, ?_, ?_⟩
  · intro e he
    rcases List.mem_singleton.mp he with rfl
    exact hnil
  · intro e he
    rcases List.mem_singleton.mp he with rfl
    exact haug
  · intro e he
    rcases List.mem_singleton.mp he with rfl
    exact hwf
  · intro e he
    rcases List.mem_singleton.mp he with rfl
    exact hids
  · intro e he _
    rcases List.mem_singleton.mp he with rfl
    rfl
  · intro e he hf
    rcases List.mem_singleton.mp he with rfl
    exact absurd hf (List.not_mem_nil _)
  · have hi1 : idsOfEntry [] (t, t.maxTs) = t.toList.map fun iv => iv.id := by
      unfold idsOfEntry
      rw [if_neg (List.not_mem_nil _)]
    show (([(t, t.maxTs)].map (idsOfEntry [])).flatten).Nodup
    simpa [hi1] using hids
  · intro e _ _ y hy
    exact absurd hy (List.not_mem_nil _)
  · intro y hy
    exact absurd hy (List.not_mem_nil _)

theorem pendingSet_init (t : ITree) (lo hi : String) :
    pendingSet ⟨true, lo, hi, [(t, t.maxTs)], []⟩ =
      (t.toList.filter fun iv => overlapsB iv ⟨"", lo, hi, 0⟩).toFinset := by
  show pendingOf [] ⟨"", lo, hi, 0⟩ (t, t.maxTs) ∪ ∅ = _
  rw [Finset.union_empty]
  unfold pendingOf
  rw [if_neg (List.not_mem_nil _)]

/-- C1 (amended): on a non-empty quiescent tree whose cached
`max_high`/`max_timestamp` fields satisfy the augmentation equations, whose
stored intervals are well-formed (`low ≤ high`) and carry pairwise-distinct
ids, a `TopKIterator` constructed for the range `[lo, hi]` yields, over
sufficiently many `next()` calls, exactly the stored intervals that intersect
the range (both ends inclusive), each at most once, in non-increasing
timestamp order; after the last one, `next()` returns false. -/
theorem c1_topk_iterator_correct (t : ITree) (lo hi : String) (k : Nat)
    (hnil : t ≠ ITree.nil) (haug : augOKb t = true)
    (hwf : ∀ iv ∈ t.toList, iv.low ≤ iv.high)
    (hids : (t.toList.map fun iv => iv.id).Nodup)
    (hk : (t.toList.filter fun iv =>
      overlapsB iv ⟨"", lo, hi, 0⟩).toFinset.card ≤ k) :
    (topkRun k (mkTopKIterator { setDefaultsState with root := t }
        lo hi).2).1.toFinset =
        (t.toList.filter fun iv => overlapsB iv ⟨"", lo, hi, 0⟩).toFinset ∧
      (topkRun k (mkTopKIterator { setDefaultsState with root := t }
        lo hi).2).1.Nodup ∧
      (topkRun k (mkTopKIterator { setDefaultsState with root := t }
        lo hi).2).1.Pairwise (fun a b => b.timestamp ≤ a.timestamp) ∧
      topkNext (topkRun k (mkTopKIterator { setDefaultsState with root := t }
        lo hi).2).2 = none := by
  have hmk : (mkTopKIterator { setDefaultsState with root := t } lo hi).2 =
      ⟨true, lo, hi, [(t, t.maxTs)], []⟩ := by
    rw [mkTopKIterator, if_pos ⟨hnil, rfl⟩]
  rw [hmk]
  obtain ⟨r1, r2, r3, _, r5⟩ := runSpec k ⟨true, lo, hi, [(t, t.maxTs)], []⟩
    (initIterInv t lo hi hnil haug hwf hids) rfl
    (by rw [pendingSet_init]; exact hk)
  rw [pendingSet_init] at r1
  exact ⟨r1, r2, r3, r5⟩

/-- Concrete three-node tree with correct cached fields, used to witness the
amended top-K iterator theorem. -/
def c1tree : ITree :=
  .node ⟨"b", "b", "b", 5⟩ false "c" 7
    (.node ⟨"a", "a", "a", 3⟩ true "a" 3 .nil .nil)
    (.node ⟨"c", "c", "c", 7⟩ true "c" 7 .nil .nil)

/-- Witness for the amended C1 theorem at a concrete three-interval tree and
the range `["a", "z"]`. -/
theorem c1_topk_iterator_correct_witness :
    augOKb c1tree = true ∧
    ((topkRun 3 (mkTopKIterator { setDefaultsState with root := c1tree }
        "a" "z").2).1.toFinset =
        (c1tree.toList.filter fun iv => overlapsB iv ⟨"", "a", "z", 0⟩).toFinset ∧
      (topkRun 3 (mkTopKIterator { setDefaultsState with root := c1tree }
        "a" "z").2).1.Nodup ∧
      (topkRun 3 (mkTopKIterator { setDefaultsState with root := c1tree }
        "a" "z").2).1.Pairwise (fun a b => b.timestamp ≤ a.timestamp) ∧
      topkNext (topkRun 3 (mkTopKIterator { setDefaultsState with root := c1tree }
        "a" "z").2).2 = none) :=
  ⟨by rfl, c1_topk_iterator_correct c1tree "a" "z" 3 (by decide) (by rfl)
    (by decide) (by decide) (by decide)⟩
